import Mathlib

/-!
Verification of the grid rendering/compositing engine of the sudoku_cli
repository (src/tools/sudoku_view.py) against its natural-language
specification.

The Python source is shallowly embedded: every Python string operation used
by the renderer (join, rjust/ljust, center, single-character replace) is
given an executable Lean counterpart with the same semantics, and the
function view together with the CustomViewConfig protocol and its
implementations are translated definition by definition.
-/

namespace SudokuView

/-! ## Python string primitives -/

/-- Python sep.join(list). -/
def pyJoin (sep : String) : List String → String
  | [] => ""
  | [s] => s
  | s :: rest => s ++ sep ++ pyJoin sep rest

/-- A string made of n copies of one character. Mirrors Python "c" * n. -/
def repChar (c : Char) (n : Nat) : String := ⟨List.replicate n c⟩

/-- Python s.rjust(w): pad with spaces on the left up to width w
(no-op when w is at most the length, matching Python also for a negative
target since Nat subtraction truncates at zero exactly where Python's
rjust ignores a negative width). -/
def rjust (s : String) (w : Nat) : String :=
  ⟨List.replicate (w - s.data.length) ' ' ++ s.data⟩

/-- Python s.ljust(w): pad with spaces on the right up to width w. -/
def ljust (s : String) (w : Nat) : String :=
  ⟨s.data ++ List.replicate (w - s.data.length) ' '⟩

/-- Python s.center(w) (CPython puts the extra character at
marg / 2 + (marg AND w AND 1) on the left, where marg = w - len(s)). -/
def pyCenter (s : String) (w : Nat) : String :=
  let marg := w - s.data.length
  let left := marg / 2 + (Nat.land (Nat.land marg w) 1)
  ⟨List.replicate left ' ' ++ s.data ++ List.replicate (marg - left) ' '⟩

/-- Python s.replace(a, b) for single-character a and b: replace every
occurrence of the character a by b. -/
def chrRep (a b : Char) (s : String) : String :=
  ⟨s.data.map (fun c => if c = a then b else c)⟩

/-- Insertion of a number into a sorted list; building block of sortNat. -/
def insSorted (x : Nat) : List Nat → List Nat
  | [] => [x]
  | y :: ys => if x ≤ y then x :: y :: ys else y :: insSorted x ys

/-- Ascending sort, mirroring Python sorted() on a set of ints. -/
def sortNat : List Nat → List Nat
  | [] => []
  | x :: xs => insSorted x (sortNat xs)

/-- Python max(list) over a list of naturals (the renderer only applies it
to non-empty lists, where folding from 0 agrees with Python's max). -/
def listMax (l : List Nat) : Nat := l.foldl max 0

/-! ## The external board collaborator

The board object comes from the external sudokutools library; the spec
(sections 3 and 6) fixes its interface: block dimensions, per-cell integer
values with 0 meaning empty, row-major iteration over range(size), and
per-cell candidate sets.  We model it as a record of those observables. -/

/-- State of a sudokutools Sudoku object: block width and height
(size = w * h), the cell values, and the stored candidate sets
(kept as duplicate-free lists of naturals). -/
structure SudokuState where
  w : Nat
  h : Nat
  values : Nat × Nat → Nat
  candidates : Nat × Nat → List Nat

/-- size = width * height, the side length of the grid. -/
def SudokuState.size (s : SudokuState) : Nat := s.w * s.h

/-- sudoku.indices = range(size). -/
def SudokuState.indices (s : SudokuState) : List Nat := List.range s.size

/-- Row-major iteration over all coordinates, as Python iterating the
Sudoku object yields. -/
def SudokuState.coords (s : SudokuState) : List (Nat × Nat) :=
  s.indices.flatMap (fun r => s.indices.map (fun c => (r, c)))

/-- Values appearing in the same row, column or block as the given cell
(including the cell itself).  Modelled from the external library's
surrounding_of used by its init_candidates. -/
def SudokuState.surroundingValues (s : SudokuState) (idx : Nat × Nat) : List Nat :=
  let r := idx.1
  let c := idx.2
  let rowVals := s.indices.map (fun j => s.values (r, j))
  let colVals := s.indices.map (fun i => s.values (i, c))
  let br := r - r % s.h
  let bc := c - c % s.w
  let boxVals := (List.range s.h).flatMap
    (fun i => (List.range s.w).map (fun j => s.values (br + i, bc + j)))
  rowVals ++ colVals ++ boxVals

/-- Modelled from the external sudokutools.solve.init_candidates (spec
section 6: candidate-set lookup collaborator): recompute and overwrite the
candidate set of every cell from the current values — the single value for
a filled cell, the numbers not excluded by row, column or block for an
empty cell. -/
def init_candidates (s : SudokuState) : SudokuState :=
  let cands : Nat × Nat → List Nat := fun idx =>
    if s.values idx ≠ 0 then [s.values idx]
    else ((List.range s.size).map (· + 1)).filter
      (fun n => ¬ (s.surroundingValues idx).contains n)
  { s with candidates := cands }

/-! ## The CustomViewConfig protocol (src/tools/sudoku_view.py lines 20-67) -/

/-- The CustomViewConfig protocol: per-cell optional styled fragment,
per-cell display length, and the maximum display length over the cells
this config answers for. -/
structure CustomViewConfig where
  item : Nat × Nat → Option String
  displayLength : Nat × Nat → Nat
  maxDisplayLength : Nat

/-- StyledContentCustomViewMixin._get_styled: wrap raw content in a rich
markup tag when a style is configured. -/
def getStyled (style : Option String) (raw : String) : String :=
  match style with
  | none => raw
  | some s => "[" ++ s ++ "]" ++ raw ++ "[/" ++ s ++ "]"

/-- IterableCustomViewConfigMixin.max_display_length: running maximum of
display_length over the iterated indices, starting from 0. -/
def iterMaxDisplayLength (dl : Nat × Nat → Nat) (idxs : List (Nat × Nat)) : Nat :=
  idxs.foldl (fun maxLen i => max (dl i) maxLen) 0

/-- SudokuCustomViewConfig: answers exactly for cells whose board value is
non-zero, returning the decimal string of the value wrapped in the
configured style; display_length is the raw decimal length (0 for empty
cells); max_display_length iterates the board's coordinates. -/
def SudokuCustomViewConfig (sudoku : SudokuState) (style : Option String) :
    CustomViewConfig :=
  let rawContent : Nat × Nat → Option String := fun idx =>
    if sudoku.values idx = 0 then none else some (toString (sudoku.values idx))
  let dl : Nat × Nat → Nat := fun idx =>
    match rawContent idx with
    | none => 0
    | some raw => raw.data.length
  { item := fun idx =>
      match rawContent idx with
      | none => none
      | some raw => some (getStyled style raw)
    displayLength := dl
    maxDisplayLength := iterMaxDisplayLength dl sudoku.coords }

/-- StyledDictCustomViewConfig: a dictionary from coordinates to raw
content, with one style for all entries.  The dictionary is modelled as a
key list together with its lookup function. -/
def StyledDictCustomViewConfig (entries : List ((Nat × Nat) × String))
    (style : Option String) : CustomViewConfig :=
  let rawContent : Nat × Nat → Option String := fun idx =>
    (entries.find? (fun e => e.1 = idx)).map (·.2)
  let dl : Nat × Nat → Nat := fun idx =>
    match rawContent idx with
    | none => 0
    | some raw => raw.data.length
  { item := fun idx =>
      match rawContent idx with
      | none => none
      | some raw => some (getStyled style raw)
    displayLength := dl
    maxDisplayLength := iterMaxDisplayLength dl (entries.map (·.1)) }

/-! ## The view function (src/tools/sudoku_view.py lines 244-465)

The Python function is cut into named pieces, one per contiguous source
block, and viewStr composes them in source order.  The in-place effects of
the call (growing the caller's custom_view_configs list, mutating the
board's candidate sets through init_candidates) are returned explicitly by
viewFull. -/

/-- The arguments of view, with the source's default values.
candidatePre is the source's candidate marker argument (the string put in
front of a candidates cell). -/
structure ViewArgs where
  sudoku : SudokuState
  init_sudoku : Option SudokuState := none
  include_candidates : Bool := true
  candidatePre : String := "*"
  align_right : Bool := true
  custom_view_configs : Option (List CustomViewConfig) := none
  index_style : String := "yellow not b"
  candidate_style : Option String := none
  init_style : Option String := some "white not bold"
  style : Option String := none

/-- Lines 297-306: start from the caller's list (a fresh empty one when
None was passed), append a config for init_sudoku when given, then append
a config for the current sudoku.  In Python this mutates the caller's
list object; the result here is the list as it stands afterwards. -/
def allConfigs (a : ViewArgs) : List CustomViewConfig :=
  (a.custom_view_configs.getD [])
    ++ (match a.init_sudoku with
        | some s => [SudokuCustomViewConfig s a.init_style]
        | none => [])
    ++ [SudokuCustomViewConfig a.sudoku a.style]

/-- Line 308: max_length = max of max_display_length over all configs. -/
def maxLength (a : ViewArgs) : Nat :=
  listMax ((allConfigs a).map (·.maxDisplayLength))

/-- Lines 310-313: the separator used between candidate numbers. -/
def numberSep (a : ViewArgs) : String :=
  if maxLength a > 1 then "," else ""

/-- Line 319-321: when include_candidates, init_candidates(sudoku) runs
and the (mutated in place) board is used from then on. -/
def sudokuAfter (a : ViewArgs) : SudokuState :=
  if a.include_candidates then init_candidates a.sudoku else a.sudoku

/-- Lines 323-326: the length of one cell's candidate text as measured by
the layout loop (candidates joined in stored order; the length equals the
sorted join's length). -/
def candLenAt (a : ViewArgs) (idx : Nat × Nat) : Nat :=
  (pyJoin (numberSep a) (((sudokuAfter a).candidates idx).map toString)).data.length
    + a.candidatePre.data.length

/-- Lines 315-329: max_field_length starts from max_length and, when
candidates are included, is raised to every cell's candidate text length. -/
def maxFieldLength (a : ViewArgs) : Nat :=
  if a.include_candidates then
    a.sudoku.coords.foldl
      (fun acc idx => if candLenAt a idx > acc then candLenAt a idx else acc)
      (maxLength a)
  else maxLength a

/-- Lines 331-336: the header row of column indices 1..9 (hard-coded 9 in
the source), centered on max_field_length + 3, wrapped in index_style. -/
def rowIndices (a : ViewArgs) : String :=
  let inner := ((List.range 9).map (fun i => (i + 1))).foldl
    (fun acc i => acc ++ pyCenter (toString i) (maxFieldLength a + 3)) "   "
  "[" ++ a.index_style ++ "]" ++ inner ++ "[/" ++ a.index_style ++ "]"

/-- One horizontal segment of a thick rule. -/
def ruleSeg (mfl : Nat) : String := repChar '━' (mfl + 2)

/-- Lines 339-356 before the newline is appended: body of the thick rule
between block rows (two nested loops over sudoku.width plus a tail). -/
def ruleCore (w mfl : Nat) : String :=
  let inner :=
    (List.range w).foldl
      (fun acc j => acc ++ ruleSeg mfl ++ (if j < w - 1 then "┿" else "╋")) ""
  let part1 := (List.range (w - 1)).foldl (fun acc _ => acc ++ inner) ""
  let part2 := (List.range (w - 1)).foldl
    (fun acc j => acc ++ ruleSeg mfl ++ (if j < w - 1 then "┿" else "╋")) ""
  "┣" ++ part1 ++ part2 ++ ruleSeg mfl ++ "┫"

/-- Line 356: rule, with its trailing newline. -/
def ruleStr (w mfl : Nat) : String := ruleCore w mfl ++ "\n"

/-- One horizontal segment of a thin rule. -/
def thinSeg (mfl : Nat) : String := repChar '─' (mfl + 2)

/-- Lines 367-384 before the newline: body of the thin rule between
ordinary rows. -/
def thinCore (w mfl : Nat) : String :=
  let inner :=
    (List.range w).foldl
      (fun acc j => acc ++ thinSeg mfl ++ (if j < w - 1 then "┼" else "╂")) ""
  let part1 := (List.range (w - 1)).foldl (fun acc _ => acc ++ inner) ""
  let part2 := (List.range (w - 1)).foldl
    (fun acc j => acc ++ thinSeg mfl ++ (if j < w - 1 then "┼" else "╂")) ""
  "┠" ++ part1 ++ part2 ++ thinSeg mfl ++ "┨"

/-- Line 384: thin_rule, with its trailing newline. -/
def thinRuleStr (w mfl : Nat) : String := thinCore w mfl ++ "\n"

/-- Lines 359-361: first_rule = "  " plus rule with corner/cross
characters replaced, keeping the trailing newline. -/
def firstRule (w mfl : Nat) : String :=
  "  " ++ chrRep '┿' '┯' (chrRep '╋' '┳' (chrRep '┫' '┓' (chrRep '┣' '┏'
    (ruleStr w mfl))))

/-- Lines 362-364: last_rule. -/
def lastRule (w mfl : Nat) : String :=
  "  " ++ chrRep '┿' '┷' (chrRep '╋' '┻' (chrRep '┫' '┛' (chrRep '┣' '┗'
    (ruleStr w mfl))))

/-- Lines 404-411, the compositor: first config in list order whose item
is non-None supplies the content, paired with that config's
display_length at the coordinate; None when no config answers. -/
def firstContent : List CustomViewConfig → Nat × Nat → Option (String × Nat)
  | [], _ => none
  | p :: rest, idx =>
    match p.item idx with
    | some v => some (v, p.displayLength idx)
    | none => firstContent rest idx

/-- Lines 428-436: justification.  The target width is max_field_length
plus (len(val) - length_in_config) when the content came from a config;
rjust or ljust by align_right. -/
def justifyCell (a : ViewArgs) (lengthInConfig : Option Nat) (val : String) :
    String :=
  let target :=
    match lengthInConfig with
    | some dl => maxFieldLength a + val.data.length - dl
    | none => maxFieldLength a
  if a.align_right then rjust val target else ljust val target

/-- Lines 397-440, one cell: composite the configs, fall back to candidate
text for an unfilled cell when include_candidates, else to the empty
string; justify; wrap candidate cells in candidate_style when set. -/
def cellVal (a : ViewArgs) (idx : Nat × Nat) : String :=
  match firstContent (allConfigs a) idx with
  | some (v, dl) => justifyCell a (some dl) v
  | none =>
    if (sudokuAfter a).values idx = 0 ∧ a.include_candidates then
      let v := a.candidatePre ++ pyJoin (numberSep a)
        ((sortNat ((sudokuAfter a).candidates idx)).map toString)
      let j := justifyCell a none v
      match a.candidate_style with
      | some cs => "[" ++ cs ++ "]" ++ j ++ "[/" ++ cs ++ "]"
      | none => j
    else justifyCell a none ""

/-- Lines 443-446: the separator appended after column cc (thick at block
boundaries except the last column, thin while cc + 1 < 9). -/
def sepAfter (w h cc : Nat) : List String :=
  if (cc + 1) % w = 0 ∧ cc < w * h - 1 then ["┃"]
  else if cc + 1 < 9 then ["│"] else []

/-- Lines 392-446: col_str for one row — every cell followed by its
column separator. -/
def colStrList (a : ViewArgs) (row : Nat) : List String :=
  (List.range a.sudoku.size).flatMap
    (fun cc => cellVal a (row, cc) :: sepAfter a.sudoku.w a.sudoku.h cc)

/-- Lines 449-453: one data row — styled row index, left border, the
cells with separators, right border, joined by single spaces. -/
def rowLine (a : ViewArgs) (rc : Nat) : String :=
  pyJoin " "
    (("[" ++ a.index_style ++ "]" ++ toString (rc + 1) ++ "[/" ++ a.index_style ++ "]")
      :: "┃" :: (colStrList a rc ++ ["┃"]))

/-- Lines 455-462: what one loop iteration appends after its row line —
a newline for all but the last row, two spaces, then a thick rule at block
boundaries (except after the last row), else a thin rule while
rc + 1 < 9. -/
def rowTail (a : ViewArgs) (rc : Nat) : String :=
  let n := a.sudoku.size
  (if rc < n - 1 then "\n" else "") ++ "  " ++
    (if (rc + 1) % a.sudoku.h = 0 ∧ rc < n - 1 then
      ruleStr a.sudoku.w (maxFieldLength a)
    else if rc + 1 < 9 then thinRuleStr a.sudoku.w (maxFieldLength a)
    else "")

/-- Lines 387-462: the accumulated body s over all rows. -/
def bodyStr (a : ViewArgs) : String :=
  (List.range a.sudoku.size).foldl
    (fun acc rc => acc ++ rowLine a rc ++ rowTail a rc) ""

/-- Line 464: final assembly of the returned string. -/
def viewStr (a : ViewArgs) : String :=
  rowIndices a ++ "\n"
    ++ firstRule a.sudoku.w (maxFieldLength a)
    ++ bodyStr a ++ "\n"
    ++ lastRule a.sudoku.w (maxFieldLength a)

/-- One call to view, with its observable effects made explicit: the
returned string, the custom_view_configs list as it stands after the call
(the caller's own list object when one was passed), and the board as it
stands after the call. -/
def viewFull (a : ViewArgs) : String × List CustomViewConfig × SudokuState :=
  (viewStr a, allConfigs a, sudokuAfter a)

/-- The repository's structured error class (src/exceptions/base.py). -/
structure BaseError where
  name : String
  message : String

/-- view as an operation that could surface a structured error to the
caller.  The source body of view contains no raise statement and no
validation, so every input reaches the final return. -/
def view (a : ViewArgs) : Except BaseError String :=
  Except.ok (viewStr a)

/-! ## Visible text: stripping style markup

Style markup is the bracketed tags the renderer itself emits.  Stripping
is a single left-to-right scan: an opening bracket starts a tag, the next
closing bracket ends it, everything inside (brackets included) is
invisible; all other characters are visible. -/

/-- One step of the tag-scanner state (true = currently inside a tag). -/
def tagStep (st : Bool) (c : Char) : Bool :=
  if st then (if c = ']' then false else true)
  else (if c = '[' then true else false)

/-- Scanner state after reading a character list. -/
def tagState (st : Bool) (l : List Char) : Bool := l.foldl tagStep st

/-- The visible characters of a character list, scanned from state st. -/
def stripAux : Bool → List Char → List Char
  | _, [] => []
  | true, c :: rest => stripAux (tagStep true c) rest
  | false, c :: rest =>
    if c = '[' then stripAux true rest else c :: stripAux false rest

/-- The visible text of a string. -/
def stripMarkup (s : String) : List Char := stripAux false s.data

/-- The visible length of a string. -/
def visLen (s : String) : Nat := (stripMarkup s).length

/-- A character list whose tags are balanced: the scanner returns to the
outside-tag state after reading it. -/
def balancedL (l : List Char) : Prop := tagState false l = false

instance (l : List Char) : Decidable (balancedL l) := by
  unfold balancedL; infer_instance

/-- Plain text: no newline and no bracket characters. -/
def cleanL (l : List Char) : Prop :=
  ∀ c ∈ l, c ≠ '\n' ∧ c ≠ '[' ∧ c ≠ ']'

/-- A plain-text string. -/
def cleanS (s : String) : Prop := cleanL s.data

/-- An optional style string that is plain text when present. -/
def cleanOpt : Option String → Prop
  | none => True
  | some s => cleanS s

instance (l : List Char) : Decidable (cleanL l) := by
  unfold cleanL; infer_instance

instance (s : String) : Decidable (cleanS s) := by
  unfold cleanS; infer_instance

instance (o : Option String) : Decidable (cleanOpt o) := by
  cases o <;> (unfold cleanOpt; infer_instance)

/-- Split at newline characters; always one more piece than newlines. -/
def splitNl : List Char → List (List Char)
  | [] => [[]]
  | c :: rest =>
    if c = '\n' then [] :: splitNl rest
    else
      match splitNl rest with
      | [] => [[c]]
      | l :: ls => (c :: l) :: ls

/-- A 1-block-by-1-block board (size 1) with its single cell filled. -/
def oneCellBoard : SudokuState :=
  { w := 1, h := 1, values := fun _ => 1, candidates := fun _ => [] }

/-- A 1-block-by-1-block board with its single cell empty and an empty
stored candidate set. -/
def emptyTinyBoard : SudokuState :=
  { w := 1, h := 1, values := fun _ => 0, candidates := fun _ => [] }

/-- A degenerate board with 0 × 0 block dimensions: a malformed
configuration (there is no grid at all). -/
def badBoard : SudokuState :=
  { w := 0, h := 0, values := fun _ => 0, candidates := fun _ => [] }

/-- A provider that answers for no cell. -/
def noAnswerCfg : CustomViewConfig := StyledDictCustomViewConfig [] none

/-- A provider answering "A" at the origin. -/
def cfgA : CustomViewConfig := StyledDictCustomViewConfig [((0, 0), "A")] none

/-- A provider answering "B" at the origin. -/
def cfgB : CustomViewConfig := StyledDictCustomViewConfig [((0, 0), "B")] none

/-- Concrete arguments for the C1 witness: two providers that would both
answer at (0,0), behind one that answers nowhere; the board-value provider
added by view would also answer there. -/
def c1args : ViewArgs :=
  { sudoku := oneCellBoard, include_candidates := false
    custom_view_configs := some [noAnswerCfg, cfgA, cfgB] }

/-- A board of 2 × 1 blocks (size 2), all cells empty. -/
def wideBoard : SudokuState :=
  { w := 2, h := 1, values := fun _ => 0, candidates := fun _ => [] }

/-- A provider answering a styled "5" (display length 1, raw length 12)
at the origin. -/
def cfgRed5 : CustomViewConfig :=
  StyledDictCustomViewConfig [((0, 0), "5")] (some "red")

/-- A provider answering "abc" at (0,1), forcing field width 3. -/
def cfgAbc : CustomViewConfig :=
  StyledDictCustomViewConfig [((0, 1), "abc")] none

/-- Concrete arguments for the C3 witness. -/
def c3args : ViewArgs :=
  { sudoku := wideBoard, include_candidates := false
    custom_view_configs := some [cfgRed5, cfgAbc] }

/-- Concrete arguments for the C2 counterexample: an all-empty 2 × 1-block
board (every value and every candidate is single-digit) plus one custom
provider whose fragment "ab" has display length 2. -/
def c2args : ViewArgs :=
  { sudoku := wideBoard
    custom_view_configs := some [StyledDictCustomViewConfig [((0, 0), "ab")] none] }

/-- The trailing configs view appends: one for init_sudoku when given and
one for the current board. -/
def extraConfigs (a : ViewArgs) : List CustomViewConfig :=
  (match a.init_sudoku with
    | some s => [SudokuCustomViewConfig s a.init_style]
    | none => []) ++ [SudokuCustomViewConfig a.sudoku a.style]

/-- Arguments of the second of two identical sequential view calls with a
caller-passed provider list: same config, the board object as the first
call left it, the list object as the first call left it. -/
def secondCallArgs (a : ViewArgs) : ViewArgs :=
  { a with sudoku := sudokuAfter a, custom_view_configs := some (allConfigs a) }

/-- The thick between-blocks rule line as it appears in the output: two
gutter spaces plus the rule body (without its newline). -/
def thickRuleLine (w mfl : Nat) : String := "  " ++ ruleCore w mfl

/-- The thin between-rows rule line: gutter plus thin rule body. -/
def thinRuleLine (w mfl : Nat) : String := "  " ++ thinCore w mfl

/-- The top frame line: gutter plus rule body with corners replaced. -/
def firstRuleLine (w mfl : Nat) : String :=
  "  " ++ chrRep '┿' '┯' (chrRep '╋' '┳' (chrRep '┫' '┓' (chrRep '┣' '┏'
    (ruleCore w mfl))))

/-- The bottom frame line. -/
def lastRuleLine (w mfl : Nat) : String :=
  "  " ++ chrRep '┿' '┷' (chrRep '╋' '┻' (chrRep '┫' '┛' (chrRep '┣' '┗'
    (ruleCore w mfl))))

/-- The 21 physical lines of the output for a 3 × 3-block board: header,
top frame, 9 data rows with thin rules inside blocks and thick rules at
the two block boundaries, the last data row carrying the two trailing
gutter spaces, bottom frame, and the empty piece after the final
newline. -/
def viewLines (a : ViewArgs) : List String :=
  [rowIndices a,
   firstRuleLine a.sudoku.w (maxFieldLength a),
   rowLine a 0, thinRuleLine a.sudoku.w (maxFieldLength a),
   rowLine a 1, thinRuleLine a.sudoku.w (maxFieldLength a),
   rowLine a 2, thickRuleLine a.sudoku.w (maxFieldLength a),
   rowLine a 3, thinRuleLine a.sudoku.w (maxFieldLength a),
   rowLine a 4, thinRuleLine a.sudoku.w (maxFieldLength a),
   rowLine a 5, thickRuleLine a.sudoku.w (maxFieldLength a),
   rowLine a 6, thinRuleLine a.sudoku.w (maxFieldLength a),
   rowLine a 7, thinRuleLine a.sudoku.w (maxFieldLength a),
   rowLine a 8 ++ "  ",
   lastRuleLine a.sudoku.w (maxFieldLength a),
   ""]

/-- The style and text arguments of a render call are plain text (no
newline, no bracket characters). -/
def CleanArgs (a : ViewArgs) : Prop :=
  cleanS a.index_style ∧ cleanS a.candidatePre ∧ cleanOpt a.candidate_style
    ∧ cleanOpt a.style ∧ cleanOpt a.init_style

instance (a : ViewArgs) : Decidable (CleanArgs a) := by
  unfold CleanArgs
  infer_instance

/-- The display-length contract of one provider (spec section 4.1) over a
domain of coordinates: every fragment is newline-free and tag-balanced,
its reported display length is its visible length, and on the domain the
per-cell display length is bounded by max_display_length. -/
def ProviderOk (p : CustomViewConfig) (dom : List (Nat × Nat)) : Prop :=
  ∀ idx v, p.item idx = some v →
    '\n' ∉ v.data ∧ balancedL v.data ∧ visLen v = p.displayLength idx
      ∧ (idx ∈ dom → p.displayLength idx ≤ p.maxDisplayLength)

/-- All caller-passed providers honour the contract on the board. -/
def ProviderContract (a : ViewArgs) : Prop :=
  ∀ p ∈ a.custom_view_configs.getD [], ProviderOk p a.sudoku.coords

/-- When an init board is passed it has the same block dimensions as the
board being rendered. -/
def InitDimsOk (a : ViewArgs) : Prop :=
  match a.init_sudoku with
  | none => True
  | some s => s.w = a.sudoku.w ∧ s.h = a.sudoku.h

/-- A 3 × 3-block board, all cells empty, no stored candidates. -/
def nineBoard : SudokuState :=
  { w := 3, h := 3, values := fun _ => 0, candidates := fun _ => [] }

/-- Arguments of the C4 scenarios: a 9 × 9 render with candidates off and
only the auto-added providers, all of which report display lengths equal
to visible lengths. -/
def c4args : ViewArgs := { sudoku := nineBoard, include_candidates := false }

/-- A 2 × 2-block board (size 4), all cells empty. -/
def fourBoard : SudokuState :=
  { w := 2, h := 2, values := fun _ => 0, candidates := fun _ => [] }

/-- Arguments rendering the 2 × 2-block board. -/
def c8args : ViewArgs := { sudoku := fourBoard, include_candidates := false }

theorem tagState_append (st : Bool) (a b : List Char) :
    tagState st (a ++ b) = tagState (tagState st a) b := by
  simp [tagState, List.foldl_append]

theorem tagState_cons (st : Bool) (c : Char) (l : List Char) :
    tagState st (c :: l) = tagState (tagStep st c) l := rfl

theorem stripAux_append (a : List Char) : ∀ (st : Bool) (b : List Char),
    stripAux st (a ++ b) = stripAux st a ++ stripAux (tagState st a) b := by
  induction a with
  | nil => intro st b; simp [stripAux, tagState]
  | cons c rest ih =>
    intro st b
    rw [List.cons_append, tagState_cons]
    cases st with
    | true =>
      show stripAux (tagStep true c) (rest ++ b)
        = stripAux (tagStep true c) rest ++ _
      rw [ih]
    | false =>
      by_cases hc : c = '['
      · subst hc
        have h1 : tagStep false '[' = true := by decide
        show stripAux true (rest ++ b) = stripAux true rest ++ _
        rw [ih, h1]
      · have h1 : tagStep false c = false := by
          simp [tagStep, hc]
        show (if c = '[' then stripAux true (rest ++ b)
            else c :: stripAux false (rest ++ b))
          = (if c = '[' then stripAux true rest
            else c :: stripAux false rest) ++ _
        rw [if_neg hc, if_neg hc, ih, h1]
        rfl

theorem tagState_of_cleanL {l : List Char} (h : cleanL l) :
    tagState false l = false := by
  induction l with
  | nil => rfl
  | cons c rest ih =>
    have hc := h c (by simp)
    have hrest : cleanL rest := fun x hx => h x (by simp [hx])
    simp [tagState, tagStep, hc.2.1, List.foldl] at *
    exact ih hrest

theorem stripAux_of_cleanL {l : List Char} (h : cleanL l) :
    stripAux false l = l := by
  induction l with
  | nil => rfl
  | cons c rest ih =>
    have hc := h c (by simp)
    have hrest : cleanL rest := fun x hx => h x (by simp [hx])
    simp [stripAux, hc.2.1, ih hrest]

theorem cleanL_append {a b : List Char} (ha : cleanL a) (hb : cleanL b) :
    cleanL (a ++ b) := by
  intro c hc
  rcases List.mem_append.1 hc with h | h
  · exact ha c h
  · exact hb c h

theorem cleanL_replicate_space (n : Nat) : cleanL (List.replicate n ' ') := by
  intro c hc
  have := List.eq_of_mem_replicate hc
  subst this; refine ⟨by decide, by decide, by decide⟩

/-- Stripping a balanced-prefix concatenation is stripping piecewise. -/
theorem stripAux_false_append_of_balanced {a : List Char} (ha : balancedL a)
    (b : List Char) :
    stripAux false (a ++ b) = stripAux false a ++ stripAux false b := by
  rw [stripAux_append]
  unfold balancedL at ha
  rw [ha]

/-! ## Splitting a character list into lines -/

theorem splitNl_ne_nil (l : List Char) : splitNl l ≠ [] := by
  cases l with
  | nil => simp [splitNl]
  | cons c rest =>
    by_cases hc : c = '\n'
    · simp [splitNl, hc]
    · simp only [splitNl, if_neg hc]
      cases splitNl rest <;> simp

theorem splitNl_append_nl {a : List Char} (ha : '\n' ∉ a) (b : List Char) :
    splitNl (a ++ '\n' :: b) = a :: splitNl b := by
  induction a with
  | nil => simp [splitNl]
  | cons c rest ih =>
    have hc : c ≠ '\n' := fun h => ha (by simp [h])
    have hrest : '\n' ∉ rest := fun h => ha (by simp [h])
    rw [List.cons_append]
    show (if c = '\n' then [] :: splitNl (rest ++ '\n' :: b)
        else match splitNl (rest ++ '\n' :: b) with
          | [] => [[c]]
          | l :: ls => (c :: l) :: ls)
      = (c :: rest) :: splitNl b
    rw [if_neg hc, ih hrest]

theorem splitNl_of_noNl {a : List Char} (ha : '\n' ∉ a) : splitNl a = [a] := by
  induction a with
  | nil => rfl
  | cons c rest ih =>
    have hc : c ≠ '\n' := fun h => ha (by simp [h])
    have hrest : '\n' ∉ rest := fun h => ha (by simp [h])
    simp only [splitNl, if_neg hc, ih hrest]

/-! ## Characters of decimal representations -/

theorem digitChar_isDigit {m : Nat} (h : m < 10) : (Nat.digitChar m).isDigit := by
  interval_cases m <;> decide

theorem toDigitsCore_digits (fuel : Nat) : ∀ (n : Nat) (ds : List Char),
    (∀ c ∈ ds, c.isDigit) → ∀ c ∈ Nat.toDigitsCore 10 fuel n ds, c.isDigit := by
  induction fuel with
  | zero => intro n ds hds c hc; exact hds c hc
  | succ f ih =>
    intro n ds hds c hc
    simp only [Nat.toDigitsCore] at hc
    by_cases hz : n / 10 = 0
    · rw [if_pos hz] at hc
      rcases List.mem_cons.1 hc with h | h
      · subst h; exact digitChar_isDigit (Nat.mod_lt _ (by norm_num))
      · exact hds c h
    · rw [if_neg hz] at hc
      refine ih (n / 10) _ ?_ c hc
      intro d hd
      rcases List.mem_cons.1 hd with h | h
      · subst h; exact digitChar_isDigit (Nat.mod_lt _ (by norm_num))
      · exact hds d h

/-- Every character of the decimal representation of a natural number is
a digit. -/
theorem natRepr_digits (n : Nat) : ∀ c ∈ (toString n).data, c.isDigit := by
  intro c hc
  have : (toString n).data = Nat.toDigitsCore 10 (n + 1) n [] := rfl
  rw [this] at hc
  exact toDigitsCore_digits (n + 1) n [] (by simp) c hc

theorem cleanL_of_digits {l : List Char} (h : ∀ c ∈ l, c.isDigit) :
    cleanL l := by
  intro c hc
  have hd := h c hc
  refine ⟨?_, ?_, ?_⟩ <;> (intro he; subst he; simp [Char.isDigit] at hd)

theorem cleanS_natRepr (n : Nat) : cleanS (toString n) :=
  cleanL_of_digits (natRepr_digits n)

/-! ## Bounds for the running-maximum folds in the source -/

theorem le_foldl_max_acc (f : α → Nat) (l : List α) : ∀ acc : Nat,
    acc ≤ l.foldl (fun acc x => if f x > acc then f x else acc) acc := by
  induction l with
  | nil => intro acc; simp
  | cons x rest ih =>
    intro acc
    simp only [List.foldl_cons]
    refine le_trans ?_ (ih _)
    split <;> omega

theorem mem_le_foldl_max (f : α → Nat) {l : List α} {x : α} (hx : x ∈ l) :
    ∀ acc : Nat, f x ≤ l.foldl (fun acc x => if f x > acc then f x else acc) acc := by
  induction l with
  | nil => cases hx
  | cons y rest ih =>
    intro acc
    simp only [List.foldl_cons]
    rcases List.mem_cons.1 hx with h | h
    · subst h
      refine le_trans ?_ (le_foldl_max_acc f rest _)
      split <;> omega
    · exact ih h _

theorem le_foldl_max_acc' (f : α → Nat) (l : List α) : ∀ acc : Nat,
    acc ≤ l.foldl (fun acc x => max (f x) acc) acc := by
  induction l with
  | nil => intro acc; simp
  | cons x rest ih =>
    intro acc
    simp only [List.foldl_cons]
    exact le_trans (le_max_right _ _) (ih _)

theorem mem_le_foldl_max' (f : α → Nat) {l : List α} {x : α} (hx : x ∈ l) :
    ∀ acc : Nat, f x ≤ l.foldl (fun acc x => max (f x) acc) acc := by
  induction l with
  | nil => cases hx
  | cons y rest ih =>
    intro acc
    simp only [List.foldl_cons]
    rcases List.mem_cons.1 hx with h | h
    · subst h
      exact le_trans (le_max_left _ _) (le_foldl_max_acc' f rest _)
    · exact ih h _

theorem acc_le_foldl_natmax (l : List Nat) : ∀ acc : Nat, acc ≤ l.foldl max acc := by
  induction l with
  | nil => intro acc; simp
  | cons y rest ih =>
    intro acc
    simp only [List.foldl_cons]
    exact le_trans (le_max_left acc y) (ih _)

theorem mem_le_foldl_natmax {l : List Nat} {x : Nat} (hx : x ∈ l) :
    ∀ acc : Nat, x ≤ l.foldl max acc := by
  induction l with
  | nil => cases hx
  | cons y rest ih =>
    intro acc
    simp only [List.foldl_cons]
    rcases List.mem_cons.1 hx with h | h
    · subst h
      exact le_trans (le_max_right acc x) (acc_le_foldl_natmax rest _)
    · exact ih h _

theorem le_listMax {l : List Nat} {x : Nat} (hx : x ∈ l) : x ≤ listMax l :=
  mem_le_foldl_natmax hx 0

/-! ## Permutation facts for the insertion sort -/

theorem insSorted_perm (x : Nat) (l : List Nat) :
    List.Perm (insSorted x l) (x :: l) := by
  induction l with
  | nil => simp [insSorted]
  | cons y ys ih =>
    by_cases h : x ≤ y
    · simp [insSorted, h]
    · simp only [insSorted, if_neg h]
      exact List.Perm.trans (List.Perm.cons y ih) (List.Perm.swap x y ys)

theorem sortNat_perm (l : List Nat) : List.Perm (sortNat l) l := by
  induction l with
  | nil => simp [sortNat]
  | cons x xs ih =>
    exact List.Perm.trans (insSorted_perm x (sortNat xs)) (List.Perm.cons x ih)

/-! ## Lengths and characters of joined strings -/

theorem pyJoin_data_length (sep : String) (l : List String) :
    (pyJoin sep l).data.length
      = (l.map (fun s => s.data.length)).sum
        + sep.data.length * (l.length - 1) := by
  induction l with
  | nil => simp [pyJoin]
  | cons s rest ih =>
    cases rest with
    | nil => simp [pyJoin]
    | cons t ts =>
      show (s ++ sep ++ pyJoin sep (t :: ts)).data.length = _
      rw [String.data_append, String.data_append]
      simp only [List.length_append]
      rw [ih]
      simp only [List.map_cons, List.sum_cons, List.length_cons,
        Nat.add_sub_cancel]
      ring

theorem cleanL_pyJoin {sep : String} (hsep : cleanS sep) {l : List String}
    (hl : ∀ s ∈ l, cleanS s) : cleanL (pyJoin sep l).data := by
  induction l with
  | nil => intro c hc; simp [pyJoin] at hc
  | cons s rest ih =>
    cases rest with
    | nil => exact hl s (by simp)
    | cons t ts =>
      simp only [pyJoin, String.data_append]
      refine cleanL_append (cleanL_append (hl s (by simp)) hsep) ?_
      exact ih (fun x hx => hl x (by simp [List.mem_cons] at hx ⊢; tauto))

/-! ## Concrete boards used as witnesses and counterexamples -/

/-- The string returned by view always ends in a newline character: the
last piece appended is last_rule, which inherits the trailing newline of
rule through the character replacements. -/
theorem getLast?_append_nl {q : List Char} (h : q.getLast? = some '\n')
    (p : List Char) : (p ++ q).getLast? = some '\n' := by
  rw [List.getLast?_append, h]
  rfl

theorem viewStr_ends_newline (a : ViewArgs) :
    (viewStr a).data.getLast? = some '\n' := by
  have hl : (lastRule a.sudoku.w (maxFieldLength a)).data.getLast? = some '\n' := by
    unfold lastRule
    rw [String.data_append]
    refine getLast?_append_nl ?_ _
    unfold ruleStr
    simp [chrRep, String.data_append, List.map_append, List.getLast?_concat]
  unfold viewStr
  rw [String.data_append]
  exact getLast?_append_nl hl _

theorem viewStr_length_pos (a : ViewArgs) : (viewStr a).length ≠ 0 := by
  intro h
  have hd : (viewStr a).data = [] := by
    have : (viewStr a).data.length = 0 := h
    exact List.length_eq_zero.1 this
  have := viewStr_ends_newline a
  rw [hd] at this
  simp [List.getLast?] at this

/-! ## C7: trailing newline -/

/-- C7, counterexample: the claim says the string returned by view never
ends with a newline character; on a concrete 1 × 1-block board (candidates
off, all other arguments at their defaults) the returned string does end
with a newline. -/
theorem c7_counterexample :
    (viewStr { sudoku := oneCellBoard, include_candidates := false }).data.getLast?
      = some '\n' := by
  decide

/-- C7, amended: for every board, provider list, and config, the string
produced by view ends with a trailing newline character (the last piece
appended is last_rule, which keeps the newline of rule). -/
theorem c7_amended (a : ViewArgs) :
    (viewStr a).data.getLast? = some '\n' :=
  viewStr_ends_newline a

/-! ## C6: fail-fast configuration errors -/

/-- C6, counterexample: the claim says a malformed configuration makes
view raise a structured configuration error before any output is built.
On a degenerate 0 × 0-block board (a malformed configuration) the call
raises nothing and returns a fully built non-empty string. -/
theorem c6_counterexample :
    (view { sudoku := badBoard }).isOk = true
      ∧ (viewStr { sudoku := badBoard }).length ≠ 0 := by
  constructor
  · rfl
  · decide

/-- C6, amended: view performs no configuration validation at all — for
every input, malformed block dimensions included, it raises no error and
returns a fully built non-empty output string. -/
theorem c6_amended (a : ViewArgs) :
    view a = Except.ok (viewStr a) ∧ (viewStr a).length ≠ 0 :=
  ⟨rfl, viewStr_length_pos a⟩

/-! ## C5: frame property of the board -/

/-- C5, counterexample: the claim says a call to view leaves every piece
of board state, candidate sets included, unchanged for all settings of
include_candidates.  With include_candidates on (its default), view runs
init_candidates on the board, overwriting the stored candidate sets: on a
1 × 1-block board with one empty cell and an empty stored candidate set,
the cell's candidate set after the call is [1], not []. -/
theorem c5_counterexample :
    ((viewFull { sudoku := emptyTinyBoard }).2.2.candidates (0, 0)
        ≠ ({ sudoku := emptyTinyBoard } : ViewArgs).sudoku.candidates (0, 0))
      ∧ (viewFull { sudoku := emptyTinyBoard }).2.2.candidates (0, 0) = [1] := by
  constructor
  · decide
  · decide

/-- C5, amended: view never changes the cell values or the block
dimensions of the board; when include_candidates is false the board is
completely untouched, and when it is true the only change is that the
stored candidate sets are overwritten by the init_candidates
recomputation. -/
theorem c5_amended (a : ViewArgs) :
    (viewFull a).2.2.values = a.sudoku.values
      ∧ (viewFull a).2.2.w = a.sudoku.w
      ∧ (viewFull a).2.2.h = a.sudoku.h
      ∧ (a.include_candidates = false → (viewFull a).2.2 = a.sudoku)
      ∧ (a.include_candidates = true →
          (viewFull a).2.2 = init_candidates a.sudoku) := by
  unfold viewFull sudokuAfter
  cases hic : a.include_candidates <;>
    simp [hic, init_candidates]

/-- C5, witness: the amended statement applied to a concrete input with
include_candidates false, its implications discharged there. -/
theorem c5_witness :
    (viewFull { sudoku := oneCellBoard, include_candidates := false }).2.2
      = oneCellBoard := by
  have h := c5_amended { sudoku := oneCellBoard, include_candidates := false }
  exact h.2.2.2.1 rfl

/-! ## C10: the caller's provider list grows -/

/-- C10: when the caller passes a list as custom_view_configs, view
appends its internally created board-value configs to that very list —
one for init_sudoku when given and one for the current board — so the
list afterwards is the caller's list extended by one or two entries, and
a repeated call with the resulting list grows it again. -/
theorem c10_caller_list_grows (a : ViewArgs) (L : List CustomViewConfig)
    (h : a.custom_view_configs = some L) :
    (viewFull a).2.1
        = L ++ (match a.init_sudoku with
                | some s => [SudokuCustomViewConfig s a.init_style]
                | none => []) ++ [SudokuCustomViewConfig a.sudoku a.style]
      ∧ (viewFull a).2.1.length
          = L.length + (if a.init_sudoku.isSome then 2 else 1)
      ∧ (viewFull { a with custom_view_configs := some (viewFull a).2.1 }).2.1.length
          = L.length + 2 * (if a.init_sudoku.isSome then 2 else 1) := by
  refine ⟨?_, ?_, ?_⟩
  · unfold viewFull allConfigs
    rw [h]
    simp
  · unfold viewFull allConfigs
    rw [h]
    cases a.init_sudoku <;> simp
  · unfold viewFull allConfigs
    rw [h]
    cases a.init_sudoku <;> simp

/-- C10, witness: a concrete call with an explicitly passed empty list
and no init_sudoku grows the list to length 1, and a repeated call to
length 2. -/
theorem c10_witness :
    (viewFull { sudoku := oneCellBoard, custom_view_configs := some [] }).2.1.length = 1
      ∧ (viewFull { (({ sudoku := oneCellBoard, custom_view_configs := some [] } : ViewArgs)) with
          custom_view_configs :=
            some (viewFull { sudoku := oneCellBoard, custom_view_configs := some [] }).2.1 }).2.1.length
          = 2 := by
  have h := c10_caller_list_grows
    { sudoku := oneCellBoard, custom_view_configs := some [] } [] rfl
  exact ⟨h.2.1, h.2.2⟩

/-! ## C1: compositing priority -/

theorem firstContent_append_none {pre : List CustomViewConfig}
    {idx : Nat × Nat} (hpre : ∀ q ∈ pre, q.item idx = none)
    (rest : List CustomViewConfig) :
    firstContent (pre ++ rest) idx = firstContent rest idx := by
  induction pre with
  | nil => rfl
  | cons q qs ih =>
    have hq : q.item idx = none := hpre q (by simp)
    rw [List.cons_append]
    show (match q.item idx with
        | some v => some (v, q.displayLength idx)
        | none => firstContent (qs ++ rest) idx)
      = firstContent rest idx
    rw [hq]
    exact ih (fun x hx => hpre x (by simp [hx]))

/-- C1: for every coordinate and provider list, the compositor takes the
first provider in list order whose item is non-None: its fragment (with
its reported display length) supplies the cell, the rendered cell is
exactly that fragment justified, and the result does not depend on the
providers listed after the winner. -/
theorem c1_priority (a : ViewArgs) (pre post : List CustomViewConfig)
    (p : CustomViewConfig) (idx : Nat × Nat) (v : String)
    (hsplit : allConfigs a = pre ++ p :: post)
    (hpre : ∀ q ∈ pre, q.item idx = none)
    (hp : p.item idx = some v) :
    firstContent (allConfigs a) idx = some (v, p.displayLength idx)
      ∧ cellVal a idx = justifyCell a (some (p.displayLength idx)) v
      ∧ ∀ post' : List CustomViewConfig,
          firstContent (pre ++ p :: post') idx = some (v, p.displayLength idx) := by
  have hfc : ∀ post' : List CustomViewConfig,
      firstContent (pre ++ p :: post') idx = some (v, p.displayLength idx) := by
    intro post'
    rw [firstContent_append_none hpre]
    show (match p.item idx with
        | some v => some (v, p.displayLength idx)
        | none => firstContent post' idx)
      = some (v, p.displayLength idx)
    rw [hp]
  have h1 : firstContent (allConfigs a) idx = some (v, p.displayLength idx) := by
    rw [hsplit]; exact hfc post
  refine ⟨h1, ?_, hfc⟩
  unfold cellVal
  rw [h1]

/-- C1, witness: with providers [no-answer, "A", "B"] and a filled board
cell, the compositor picks "A", the rendered cell is "A" justified, and
dropping everything after the winner changes nothing. -/
theorem c1_witness :
    firstContent (allConfigs c1args) (0, 0) = some ("A", 1)
      ∧ cellVal c1args (0, 0) = justifyCell c1args (some 1) "A"
      ∧ firstContent ([noAnswerCfg] ++ cfgA :: []) (0, 0) = some ("A", 1) := by
  have h := c1_priority c1args [noAnswerCfg]
    (cfgB :: [SudokuCustomViewConfig c1args.sudoku c1args.style]) cfgA (0, 0) "A"
    rfl
    (by intro q hq; rw [List.mem_singleton] at hq; subst hq; rfl)
    rfl
  exact ⟨h.1, h.2.1, h.2.2 []⟩

/-! ## C3: mismatch-aware justification -/

/-- C3: when a cell's content came from a provider, the justification
padding equals the field width minus the provider-reported display length
(not the raw fragment length), the padding is applied to the raw
markup-including fragment, and whenever the reported display length
equals the fragment's visible length the justified cell occupies exactly
the field width in visible characters. -/
theorem c3_justification (a : ViewArgs) (idx : Nat × Nat) (v : String) (dl : Nat)
    (hwin : firstContent (allConfigs a) idx = some (v, dl))
    (hdl : dl ≤ maxFieldLength a) :
    (cellVal a idx).data
        = (if a.align_right then
            List.replicate (maxFieldLength a - dl) ' ' ++ v.data
          else v.data ++ List.replicate (maxFieldLength a - dl) ' ')
      ∧ (balancedL v.data → visLen v = dl →
          visLen (cellVal a idx) = maxFieldLength a) := by
  have harith : maxFieldLength a + v.data.length - dl - v.data.length
      = maxFieldLength a - dl := by omega
  have hdata : (cellVal a idx).data
      = (if a.align_right then
          List.replicate (maxFieldLength a - dl) ' ' ++ v.data
        else v.data ++ List.replicate (maxFieldLength a - dl) ' ') := by
    unfold cellVal
    rw [hwin]
    unfold justifyCell
    cases har : a.align_right with
    | true =>
      simp only [har, rjust, harith]
      simp
    | false =>
      simp only [har, rjust, ljust, harith]
      simp
  refine ⟨hdata, ?_⟩
  intro hbal hvis
  unfold visLen stripMarkup at hvis ⊢
  rw [hdata]
  have hsp : cleanL (List.replicate (maxFieldLength a - dl) ' ') :=
    cleanL_replicate_space _
  cases a.align_right with
  | true =>
    rw [if_pos rfl]
    rw [stripAux_false_append_of_balanced
      (tagState_of_cleanL hsp) v.data]
    rw [stripAux_of_cleanL hsp]
    simp only [List.length_append, List.length_replicate, hvis]
    omega
  | false =>
    rw [if_neg (by simp)]
    rw [stripAux_false_append_of_balanced hbal _]
    rw [stripAux_of_cleanL hsp]
    simp only [List.length_append, List.length_replicate, hvis]
    omega

/-- C3, witness: field width 3, provider reports display length 1 for the
markup fragment of raw length 12; the padding is 3 - 1 = 2 spaces applied
to the raw fragment, and the visible width of the cell is exactly 3. -/
theorem c3_witness :
    (cellVal c3args (0, 0)).data
        = List.replicate 2 ' ' ++ ("[red]5[/red]" : String).data
      ∧ visLen (cellVal c3args (0, 0)) = 3 := by
  have h := c3_justification c3args (0, 0) "[red]5[/red]" 1 rfl (by decide)
  exact ⟨h.1, h.2 (by decide) (by decide)⟩

/-! ## C2: candidate fallback -/

theorem insSorted_sorted {x : Nat} {l : List Nat}
    (h : List.Sorted (· ≤ ·) l) : List.Sorted (· ≤ ·) (insSorted x l) := by
  induction l with
  | nil => simp [insSorted]
  | cons y ys ih =>
    rw [List.sorted_cons] at h
    by_cases hxy : x ≤ y
    · rw [insSorted, if_pos hxy, List.sorted_cons]
      refine ⟨?_, List.sorted_cons.2 h⟩
      intro b hb
      rcases List.mem_cons.1 hb with hb | hb
      · subst hb; exact hxy
      · exact le_trans hxy (h.1 b hb)
    · rw [insSorted, if_neg hxy, List.sorted_cons]
      refine ⟨?_, ih h.2⟩
      intro b hb
      have hb' := List.mem_cons.1 ((insSorted_perm x ys).mem_iff.1 hb)
      rcases hb' with hb' | hb'
      · subst hb'; omega
      · exact h.1 b hb'

theorem sortNat_sorted (l : List Nat) : List.Sorted (· ≤ ·) (sortNat l) := by
  induction l with
  | nil => simp [sortNat]
  | cons x xs ih => exact insSorted_sorted ih

/-- C2, counterexample: the claim says the candidate separator is the
empty string whenever all values are single-digit.  In c2args every board
value and every candidate is single-digit, cell (0,1) is empty with no
provider answering and candidates enabled — yet its rendered fragment is
"*1,2" (comma separator), not "*12", because the separator is chosen from
the maximum provider display length (2 here, due to the "ab" fragment). -/
theorem c2_counterexample :
    firstContent (allConfigs c2args) (0, 1) = none
      ∧ c2args.sudoku.values (0, 1) = 0
      ∧ c2args.include_candidates = true
      ∧ (sudokuAfter c2args).candidates (0, 1) = [1, 2]
      ∧ cellVal c2args (0, 1) = "*1,2"
      ∧ ("*1,2" : String) ≠ "*12" := by
  refine ⟨?_, rfl, rfl, ?_, ?_, ?_⟩
  · decide
  · decide
  · decide
  · decide

/-- C2, amended: for every cell whose board value is 0, for which no
provider answers, and with candidate display enabled, the rendered cell
is the configured candidate marker followed by the cell's candidate set
sorted ascending, joined by a separator that is the empty string if the
maximum display length over all providers is at most 1 and a comma
otherwise (not: if all values are single-digit), then justified and
wrapped in candidate_style when set. -/
theorem c2_candidate_fallback (a : ViewArgs) (idx : Nat × Nat)
    (h1 : firstContent (allConfigs a) idx = none)
    (h2 : (sudokuAfter a).values idx = 0)
    (h3 : a.include_candidates = true) :
    cellVal a idx
        = (match a.candidate_style with
          | some cs => "[" ++ cs ++ "]"
              ++ justifyCell a none (a.candidatePre ++ pyJoin (numberSep a)
                ((sortNat ((sudokuAfter a).candidates idx)).map toString))
              ++ "[/" ++ cs ++ "]"
          | none => justifyCell a none (a.candidatePre ++ pyJoin (numberSep a)
              ((sortNat ((sudokuAfter a).candidates idx)).map toString)))
      ∧ List.Sorted (· ≤ ·) (sortNat ((sudokuAfter a).candidates idx))
      ∧ List.Perm (sortNat ((sudokuAfter a).candidates idx))
          ((sudokuAfter a).candidates idx)
      ∧ numberSep a = (if maxLength a > 1 then "," else "") := by
  refine ⟨?_, sortNat_sorted _, sortNat_perm _, rfl⟩
  unfold cellVal
  rw [h1, if_pos ⟨h2, h3⟩]

/-- C2, witness: the fallback law applied at cell (0,1) of the c2args
scenario, every hypothesis discharged there. -/
theorem c2_witness :
    cellVal c2args (0, 1)
        = justifyCell c2args none (c2args.candidatePre ++ pyJoin (numberSep c2args)
            ((sortNat ((sudokuAfter c2args).candidates (0, 1))).map toString))
      ∧ List.Sorted (· ≤ ·) (sortNat ((sudokuAfter c2args).candidates (0, 1))) := by
  have h := c2_candidate_fallback c2args (0, 1) (by decide) (by decide) rfl
  exact ⟨h.1, h.2.1⟩

/-! ## C9: determinism and idempotence across sequential calls

In Python the second of two identical view calls receives the same
objects as mutated by the first call: the board's candidate sets have
been overwritten by init_candidates and, when a list was passed as
custom_view_configs, that list has grown by the auto-appended configs.
secondCallArgs is exactly the argument record of that second call. -/

theorem allConfigs_eq (a : ViewArgs) :
    allConfigs a = a.custom_view_configs.getD [] ++ extraConfigs a := by
  unfold allConfigs extraConfigs
  rw [List.append_assoc]

theorem sudokuConfig_init_candidates (x : SudokuState) (st : Option String) :
    SudokuCustomViewConfig (init_candidates x) st = SudokuCustomViewConfig x st :=
  rfl

theorem sudokuAfter_second (a : ViewArgs) :
    sudokuAfter (secondCallArgs a) = sudokuAfter a := by
  unfold secondCallArgs sudokuAfter
  cases h : a.include_candidates
  · simp [h]
  · simp only [h, if_pos]
    exact rfl

theorem extraConfigs_second (a : ViewArgs) :
    extraConfigs (secondCallArgs a) = extraConfigs a := by
  unfold extraConfigs secondCallArgs
  simp only
  congr 1
  unfold sudokuAfter
  cases h : a.include_candidates
  · simp [h]
  · simp only [h, if_pos]
    rw [sudokuConfig_init_candidates]

theorem allConfigs_second (a : ViewArgs) :
    allConfigs (secondCallArgs a) = allConfigs a ++ extraConfigs a := by
  rw [allConfigs_eq (secondCallArgs a), extraConfigs_second]
  rfl

theorem foldl_max_eq (l : List Nat) : ∀ acc : Nat,
    l.foldl max acc = max acc (listMax l) := by
  induction l with
  | nil => intro acc; simp [listMax]
  | cons x xs ih =>
    intro acc
    have hx : listMax (x :: xs) = max x (listMax xs) := by
      unfold listMax
      simp only [List.foldl_cons, Nat.zero_max]
      rw [ih x]
      rfl
    rw [List.foldl_cons, ih (max acc x), hx]
    exact Nat.max_assoc acc x (listMax xs)

theorem listMax_append (u v : List Nat) :
    listMax (u ++ v) = max (listMax u) (listMax v) := by
  unfold listMax
  rw [List.foldl_append]
  rw [foldl_max_eq v (List.foldl max 0 u)]
  rfl

theorem maxLength_second (a : ViewArgs) :
    maxLength (secondCallArgs a) = maxLength a := by
  unfold maxLength
  rw [allConfigs_second, List.map_append, listMax_append]
  conv_rhs => rw [allConfigs_eq a, List.map_append, listMax_append]
  conv_lhs => rw [allConfigs_eq a, List.map_append, listMax_append]
  omega

theorem numberSep_second (a : ViewArgs) :
    numberSep (secondCallArgs a) = numberSep a := by
  unfold numberSep
  rw [maxLength_second]

theorem candLenAt_second (a : ViewArgs) :
    candLenAt (secondCallArgs a) = candLenAt a := by
  funext idx
  unfold candLenAt
  rw [numberSep_second, sudokuAfter_second]
  rfl

theorem sudokuAfter_coords (a : ViewArgs) :
    (sudokuAfter a).coords = a.sudoku.coords := by
  unfold sudokuAfter
  cases h : a.include_candidates
  · simp [h]
  · simp [h]
    rfl

theorem maxFieldLength_second (a : ViewArgs) :
    maxFieldLength (secondCallArgs a) = maxFieldLength a := by
  unfold maxFieldLength
  rw [candLenAt_second, maxLength_second]
  have hc : (secondCallArgs a).sudoku.coords = a.sudoku.coords := by
    show (sudokuAfter a).coords = a.sudoku.coords
    exact sudokuAfter_coords a
  rw [hc]
  rfl

theorem firstContent_append (u v : List CustomViewConfig) (idx : Nat × Nat) :
    firstContent (u ++ v) idx
      = (match firstContent u idx with
        | some r => some r
        | none => firstContent v idx) := by
  induction u with
  | nil => rfl
  | cons p ps ih =>
    rw [List.cons_append]
    have hcons : firstContent (p :: ps) idx
        = (match p.item idx with
          | some w => some (w, p.displayLength idx)
          | none => firstContent ps idx) := rfl
    have hcons2 : firstContent (p :: (ps ++ v)) idx
        = (match p.item idx with
          | some w => some (w, p.displayLength idx)
          | none => firstContent (ps ++ v) idx) := rfl
    rw [hcons2, hcons]
    cases hp : p.item idx with
    | some w => rfl
    | none =>
      simp only
      exact ih

theorem firstContent_second (a : ViewArgs) (idx : Nat × Nat) :
    firstContent (allConfigs (secondCallArgs a)) idx
      = firstContent (allConfigs a) idx := by
  rw [allConfigs_second, firstContent_append]
  cases hfc : firstContent (allConfigs a) idx with
  | some r => rfl
  | none =>
    simp only
    rw [allConfigs_eq a, firstContent_append] at hfc
    revert hfc
    cases firstContent (a.custom_view_configs.getD []) idx with
    | some r => intro hfc; cases hfc
    | none => intro hfc; exact hfc

theorem justifyCell_second (a : ViewArgs) :
    justifyCell (secondCallArgs a) = justifyCell a := by
  funext lic v
  unfold justifyCell
  rw [maxFieldLength_second]
  rfl

theorem cellVal_second (a : ViewArgs) :
    cellVal (secondCallArgs a) = cellVal a := by
  funext idx
  unfold cellVal
  rw [firstContent_second, justifyCell_second, numberSep_second,
    sudokuAfter_second]
  rfl

theorem sudokuAfter_w (a : ViewArgs) : (sudokuAfter a).w = a.sudoku.w := by
  unfold sudokuAfter
  cases h : a.include_candidates
  · simp [h]
  · simp [h]
    rfl

theorem sudokuAfter_h (a : ViewArgs) : (sudokuAfter a).h = a.sudoku.h := by
  unfold sudokuAfter
  cases h : a.include_candidates
  · simp [h]
  · simp [h]
    rfl

theorem sudokuAfter_size (a : ViewArgs) :
    (sudokuAfter a).size = a.sudoku.size := by
  unfold SudokuState.size
  rw [sudokuAfter_w, sudokuAfter_h]

/-- C9: rendering the same (board, provider list, config) twice in
sequence — the second call seeing the board and list objects exactly as
the first call left them — yields byte-identical output strings. -/
theorem c9_determinism (a : ViewArgs) :
    viewStr (secondCallArgs a) = viewStr a := by
  have hw : (secondCallArgs a).sudoku.w = a.sudoku.w := sudokuAfter_w a
  have hh : (secondCallArgs a).sudoku.h = a.sudoku.h := sudokuAfter_h a
  have hsize : (secondCallArgs a).sudoku.size = a.sudoku.size :=
    sudokuAfter_size a
  have hrowIdx : rowIndices (secondCallArgs a) = rowIndices a := by
    unfold rowIndices
    rw [maxFieldLength_second]
    rfl
  have hcol : colStrList (secondCallArgs a) = colStrList a := by
    funext row
    unfold colStrList
    rw [cellVal_second, hsize, hw, hh]
  have hrl : rowLine (secondCallArgs a) = rowLine a := by
    funext rc
    unfold rowLine
    rw [hcol]
    rfl
  have hrt : rowTail (secondCallArgs a) = rowTail a := by
    funext rc
    unfold rowTail
    rw [hsize, hh, hw, maxFieldLength_second]
  have hbody : bodyStr (secondCallArgs a) = bodyStr a := by
    unfold bodyStr
    rw [hsize, hrl, hrt]
  unfold viewStr
  rw [hrowIdx, hbody, hw, maxFieldLength_second]

/-! ## Line structure of the rendered string

For the width and row-count claims the output is decomposed into its
physical lines.  The defs below name the newline-free content of each
rule line; viewLines lists the 21 lines of the output of a 3 × 3-block
render (9 data rows interleaved with rules, header, frame, and the final
empty piece after the trailing newline). -/

theorem chrRep_append (a b : Char) (s t : String) :
    chrRep a b (s ++ t) = chrRep a b s ++ chrRep a b t := by
  apply String.ext
  simp [chrRep, String.data_append]

theorem firstRule_eq (w mfl : Nat) :
    firstRule w mfl = firstRuleLine w mfl ++ "\n" := by
  unfold firstRule firstRuleLine ruleStr
  rw [chrRep_append, chrRep_append, chrRep_append, chrRep_append]
  have h1 : chrRep '┣' '┏' "\n" = "\n" := rfl
  have h2 : chrRep '┫' '┓' "\n" = "\n" := rfl
  have h3 : chrRep '╋' '┳' "\n" = "\n" := rfl
  have h4 : chrRep '┿' '┯' "\n" = "\n" := rfl
  rw [h1, h2, h3, h4]
  apply String.ext
  simp [String.data_append]

theorem lastRule_eq (w mfl : Nat) :
    lastRule w mfl = lastRuleLine w mfl ++ "\n" := by
  unfold lastRule lastRuleLine ruleStr
  rw [chrRep_append, chrRep_append, chrRep_append, chrRep_append]
  have h1 : chrRep '┣' '┗' "\n" = "\n" := rfl
  have h2 : chrRep '┫' '┛' "\n" = "\n" := rfl
  have h3 : chrRep '╋' '┻' "\n" = "\n" := rfl
  have h4 : chrRep '┿' '┷' "\n" = "\n" := rfl
  rw [h1, h2, h3, h4]
  apply String.ext
  simp [String.data_append]

/-- Splitting the newline-join of newline-free lines returns the lines. -/
theorem splitNl_pyJoinNl : ∀ L : List String, L ≠ [] →
    (∀ s ∈ L, '\n' ∉ s.data) →
    splitNl (pyJoin "\n" L).data = L.map String.data := by
  intro L
  induction L with
  | nil => intro h; cases h rfl
  | cons s rest ih =>
    intro _ hnl
    cases rest with
    | nil =>
      show splitNl s.data = [s.data]
      exact splitNl_of_noNl (hnl s (by simp))
    | cons t ts =>
      show splitNl (s ++ "\n" ++ pyJoin "\n" (t :: ts)).data = _
      have hd : (s ++ "\n" ++ pyJoin "\n" (t :: ts)).data
          = s.data ++ '\n' :: (pyJoin "\n" (t :: ts)).data := by
        simp [String.data_append]
      rw [hd, splitNl_append_nl (hnl s (by simp))]
      rw [ih (by simp) (fun x hx => hnl x (by simp [hx]))]
      rfl

/-! ## Newline-freeness of the line pieces -/

theorem noNl_append {u v : List Char} (hu : '\n' ∉ u) (hv : '\n' ∉ v) :
    '\n' ∉ u ++ v := by
  intro h
  rcases List.mem_append.1 h with h | h
  · exact hu h
  · exact hv h

theorem noNl_replicate (c : Char) (hc : c ≠ '\n') (n : Nat) :
    '\n' ∉ List.replicate n c := by
  intro h
  exact hc ((List.eq_of_mem_replicate h).symm)

theorem noNl_of_cleanL {l : List Char} (h : cleanL l) : '\n' ∉ l := by
  intro hm
  exact (h '\n' hm).1 rfl

theorem noNl_chrRep (a b : Char) (hb : b ≠ '\n') {s : String}
    (hs : '\n' ∉ s.data) : '\n' ∉ (chrRep a b s).data := by
  unfold chrRep
  intro h
  simp only [List.mem_map] at h
  obtain ⟨c, hc, hfc⟩ := h
  by_cases hca : c = a
  · rw [if_pos hca] at hfc; exact hb hfc
  · rw [if_neg hca] at hfc; subst hfc; exact hs hc

theorem noNl_pyJoin {sep : String} (hsep : '\n' ∉ sep.data) {L : List String}
    (hL : ∀ s ∈ L, '\n' ∉ s.data) : '\n' ∉ (pyJoin sep L).data := by
  induction L with
  | nil => simp [pyJoin]
  | cons s rest ih =>
    cases rest with
    | nil => exact hL s (by simp)
    | cons t ts =>
      show '\n' ∉ (s ++ sep ++ pyJoin sep (t :: ts)).data
      simp only [String.data_append]
      refine noNl_append (noNl_append (hL s (by simp)) hsep) ?_
      exact ih (fun x hx => hL x (by simp [hx]))

/-- Every character appended by the rule-body folds is a box-drawing
character, so the fold of newline-free pieces stays newline-free. -/
theorem noNl_foldl_append {β : Type} (f : β → String)
    (hf : ∀ j, '\n' ∉ (f j).data) (l : List β) :
    ∀ init : String, '\n' ∉ init.data →
      '\n' ∉ (l.foldl (fun acc j => acc ++ f j) init).data := by
  induction l with
  | nil => intro init h; exact h
  | cons x xs ih =>
    intro init h
    simp only [List.foldl_cons]
    refine ih _ ?_
    rw [String.data_append]
    exact noNl_append h (hf x)

theorem noNl_ruleCore (w mfl : Nat) : '\n' ∉ (ruleCore w mfl).data := by
  unfold ruleCore
  have hseg : ∀ j : Nat, '\n' ∉ (ruleSeg mfl ++ (if j < w - 1 then "┿" else "╋")).data := by
    intro j
    rw [String.data_append]
    refine noNl_append (noNl_replicate _ (by decide) _) ?_
    split <;> decide
  have hinner : '\n' ∉ ((List.range w).foldl
      (fun acc j => acc ++ ruleSeg mfl ++ (if j < w - 1 then "┿" else "╋")) "").data := by
    have := noNl_foldl_append
      (fun j => ruleSeg mfl ++ (if j < w - 1 then "┿" else "╋")) hseg
      (List.range w) "" (by decide)
    refine fun hm => this ?_
    have hfe : (fun (acc : String) (j : Nat) =>
        acc ++ ruleSeg mfl ++ (if j < w - 1 then "┿" else "╋"))
      = (fun (acc : String) (j : Nat) =>
        acc ++ (ruleSeg mfl ++ (if j < w - 1 then "┿" else "╋"))) := by
      funext acc j
      apply String.ext
      simp [String.data_append]
    rw [hfe] at hm
    exact hm
  have hpart1 : '\n' ∉ ((List.range (w - 1)).foldl
      (fun acc _ => acc ++ (List.range w).foldl
        (fun acc j => acc ++ ruleSeg mfl ++ (if j < w - 1 then "┿" else "╋")) "") "").data := by
    exact noNl_foldl_append _ (fun _ => hinner) (List.range (w - 1)) "" (by decide)
  have hpart2 : '\n' ∉ ((List.range (w - 1)).foldl
      (fun acc j => acc ++ ruleSeg mfl ++ (if j < w - 1 then "┿" else "╋")) "").data := by
    have := noNl_foldl_append
      (fun j => ruleSeg mfl ++ (if j < w - 1 then "┿" else "╋")) hseg
      (List.range (w - 1)) "" (by decide)
    refine fun hm => this ?_
    have hfe : (fun (acc : String) (j : Nat) =>
        acc ++ ruleSeg mfl ++ (if j < w - 1 then "┿" else "╋"))
      = (fun (acc : String) (j : Nat) =>
        acc ++ (ruleSeg mfl ++ (if j < w - 1 then "┿" else "╋"))) := by
      funext acc j
      apply String.ext
      simp [String.data_append]
    rw [hfe] at hm
    exact hm
  simp only [String.data_append]
  refine noNl_append (noNl_append (noNl_append (noNl_append ?_ hpart1) hpart2) ?_) ?_
  · decide
  · exact noNl_replicate _ (by decide) _
  · decide

theorem noNl_thinCore (w mfl : Nat) : '\n' ∉ (thinCore w mfl).data := by
  unfold thinCore
  have hseg : ∀ j : Nat, '\n' ∉ (thinSeg mfl ++ (if j < w - 1 then "┼" else "╂")).data := by
    intro j
    rw [String.data_append]
    refine noNl_append (noNl_replicate _ (by decide) _) ?_
    split <;> decide
  have hfe : (fun (acc : String) (j : Nat) =>
      acc ++ thinSeg mfl ++ (if j < w - 1 then "┼" else "╂"))
    = (fun (acc : String) (j : Nat) =>
      acc ++ (thinSeg mfl ++ (if j < w - 1 then "┼" else "╂"))) := by
    funext acc j
    apply String.ext
    simp [String.data_append]
  have hinner : '\n' ∉ ((List.range w).foldl
      (fun acc j => acc ++ thinSeg mfl ++ (if j < w - 1 then "┼" else "╂")) "").data := by
    rw [hfe]
    exact noNl_foldl_append _ hseg (List.range w) "" (by decide)
  have hpart1 : '\n' ∉ ((List.range (w - 1)).foldl
      (fun acc _ => acc ++ (List.range w).foldl
        (fun acc j => acc ++ thinSeg mfl ++ (if j < w - 1 then "┼" else "╂")) "") "").data := by
    exact noNl_foldl_append _ (fun _ => hinner) (List.range (w - 1)) "" (by decide)
  have hpart2 : '\n' ∉ ((List.range (w - 1)).foldl
      (fun acc j => acc ++ thinSeg mfl ++ (if j < w - 1 then "┼" else "╂")) "").data := by
    rw [hfe]
    exact noNl_foldl_append _ hseg (List.range (w - 1)) "" (by decide)
  simp only [String.data_append]
  refine noNl_append (noNl_append (noNl_append (noNl_append ?_ hpart1) hpart2) ?_) ?_
  · decide
  · exact noNl_replicate _ (by decide) _
  · decide

/-! ## Stripping around a single style tag -/

theorem stripAux_false_lb (rest : List Char) :
    stripAux false ('[' :: rest) = stripAux true rest := by
  simp [stripAux]

theorem tagState_false_lb (rest : List Char) :
    tagState false ('[' :: rest) = tagState true rest := by
  rw [tagState_cons]
  rfl

/-- Scanning from inside a tag across text with no closing bracket up to
the closing bracket drops everything and lands outside the tag. -/
theorem strip_through_tag {Y : List Char} (hY : ∀ c ∈ Y, c ≠ ']') :
    ∀ rest : List Char,
      stripAux false ('[' :: (Y ++ (']' :: rest))) = stripAux false rest
        ∧ tagState false ('[' :: (Y ++ (']' :: rest))) = tagState false rest := by
  intro rest
  rw [stripAux_false_lb, tagState_false_lb]
  induction Y with
  | nil =>
    constructor
    · show stripAux (tagStep true ']') rest = stripAux false rest
      rfl
    · show tagState (tagStep true ']') rest = tagState false rest
      rfl
  | cons c Y' ih =>
    have hc : c ≠ ']' := hY c (by simp)
    have hY' : ∀ x ∈ Y', x ≠ ']' := fun x hx => hY x (by simp [hx])
    have hstep : tagStep true c = true := by simp [tagStep, hc]
    rw [List.cons_append]
    constructor
    · show stripAux (tagStep true c) (Y' ++ (']' :: rest)) = _
      rw [hstep]
      exact (ih hY').1
    · rw [tagState_cons, hstep]
      exact (ih hY').2

/-- The characters of a wrapped fragment
"[" ++ s ++ "]" ++ mid ++ "[/" ++ s ++ "]" in canonical cons form. -/
theorem wrap_data (s mid : String) :
    ("[" ++ s ++ "]" ++ mid ++ "[/" ++ s ++ "]").data
      = '[' :: (s.data ++ (']' :: (mid.data ++ ('[' :: (('/' :: s.data) ++ (']' :: [])))))) := by
  simp [String.data_append]

/-- Stripping, balance and newline-freeness of a style-wrapped fragment:
the tags vanish and the visible text is the visible text of the middle. -/
theorem wrap_props (s : String) (hs : cleanS s) (mid : String)
    (hmid : balancedL mid.data) :
    stripAux false ("[" ++ s ++ "]" ++ mid ++ "[/" ++ s ++ "]").data
        = stripAux false mid.data
      ∧ balancedL ("[" ++ s ++ "]" ++ mid ++ "[/" ++ s ++ "]").data
      ∧ ('\n' ∉ mid.data → '\n' ∉ ("[" ++ s ++ "]" ++ mid ++ "[/" ++ s ++ "]").data) := by
  have hsY : ∀ c ∈ s.data, c ≠ ']' := fun c hc => (hs c hc).2.2
  have hsY2 : ∀ c ∈ '/' :: s.data, c ≠ ']' := by
    intro c hc
    rcases List.mem_cons.1 hc with h | h
    · subst h; decide
    · exact hsY c h
  rw [wrap_data]
  have houter := strip_through_tag hsY (mid.data ++ ('[' :: (('/' :: s.data) ++ (']' :: []))))
  have hinner := strip_through_tag hsY2 ([] : List Char)
  refine ⟨?_, ?_, ?_⟩
  · rw [houter.1, stripAux_append, hmid, hinner.1]
    simp [stripAux]
  · unfold balancedL
    rw [houter.2, tagState_append, hmid, hinner.2]
    rfl
  · intro hmidnl hmem
    rcases List.mem_cons.1 hmem with h | h
    · cases h
    rcases List.mem_append.1 h with h | h
    · exact (hs '\n' h).1 rfl
    rcases List.mem_cons.1 h with h | h
    · cases h
    rcases List.mem_append.1 h with h | h
    · exact hmidnl h
    rcases List.mem_cons.1 h with h | h
    · cases h
    rcases List.mem_append.1 h with h | h
    · rcases List.mem_cons.1 h with h | h
      · cases h
      · exact (hs '\n' h).1 rfl
    · rcases List.mem_cons.1 h with h | h
      · cases h
      · cases h

/-- Stripping, balance and newline-freeness of getStyled output for a
clean optional style and clean raw content. -/
theorem getStyled_props (st : Option String) (hst : cleanOpt st) (raw : String)
    (hraw : cleanL raw.data) :
    stripAux false (getStyled st raw).data = raw.data
      ∧ balancedL (getStyled st raw).data
      ∧ '\n' ∉ (getStyled st raw).data := by
  cases st with
  | none =>
    exact ⟨stripAux_of_cleanL hraw, tagState_of_cleanL hraw, noNl_of_cleanL hraw⟩
  | some s =>
    have h := wrap_props s hst raw (tagState_of_cleanL hraw)
    unfold getStyled
    exact ⟨by rw [h.1, stripAux_of_cleanL hraw],
      h.2.1, h.2.2 (noNl_of_cleanL hraw)⟩

/-! ## Provider contract predicates -/

/-- Per-coordinate display length is bounded by the iterated maximum. -/
theorem iterMax_bound (dl : Nat × Nat → Nat) (idxs : List (Nat × Nat))
    (idx : Nat × Nat) (h : idx ∈ idxs) :
    dl idx ≤ iterMaxDisplayLength dl idxs :=
  mem_le_foldl_max' dl h 0

theorem coords_congr {s t : SudokuState} (hw : s.w = t.w) (hh : s.h = t.h) :
    s.coords = t.coords := by
  unfold SudokuState.coords SudokuState.indices SudokuState.size
  rw [hw, hh]

/-- The board-value provider honours the contract on its own board. -/
theorem sudokuConfig_ok (s : SudokuState) (st : Option String)
    (hst : cleanOpt st) : ProviderOk (SudokuCustomViewConfig s st) s.coords := by
  intro idx v hitem
  by_cases hz : s.values idx = 0
  · exfalso
    unfold SudokuCustomViewConfig at hitem
    simp only [hz, if_pos rfl] at hitem
    cases hitem
  · have hv : v = getStyled st (toString (s.values idx)) := by
      unfold SudokuCustomViewConfig at hitem
      simp only [if_neg hz] at hitem
      cases hitem
      rfl
    have hdl : (SudokuCustomViewConfig s st).displayLength idx
        = (toString (s.values idx)).data.length := by
      unfold SudokuCustomViewConfig
      simp only [if_neg hz]
    have hdig : cleanL (toString (s.values idx)).data := cleanS_natRepr _
    have hprops := getStyled_props st hst (toString (s.values idx)) hdig
    subst hv
    refine ⟨hprops.2.2, hprops.2.1, ?_, ?_⟩
    · unfold visLen stripMarkup
      rw [hprops.1, hdl]
    · intro hdom
      exact iterMax_bound _ s.coords idx hdom

/-- Every provider in the assembled list (caller-passed plus the two
auto-appended board-value providers) honours the contract on the board
being rendered. -/
theorem allConfigs_ok (a : ViewArgs) (hca : CleanArgs a)
    (hpc : ProviderContract a) (hid : InitDimsOk a) :
    ∀ p ∈ allConfigs a, ProviderOk p a.sudoku.coords := by
  intro p hp
  rw [allConfigs_eq] at hp
  rcases List.mem_append.1 hp with hp | hp
  · exact hpc p hp
  · unfold extraConfigs at hp
    rcases List.mem_append.1 hp with hp | hp
    · cases hinit : a.init_sudoku with
      | none => rw [hinit] at hp; cases hp
      | some s =>
        rw [hinit] at hp
        rcases List.mem_singleton.1 hp with rfl
        unfold InitDimsOk at hid
        rw [hinit] at hid
        have hco : s.coords = a.sudoku.coords := coords_congr hid.1 hid.2
        rw [← hco]
        exact sudokuConfig_ok s a.init_style hca.2.2.2.2
    · rcases List.mem_singleton.1 hp with rfl
      exact sudokuConfig_ok a.sudoku a.style hca.2.2.2.1

/-- A compositor result names a provider in the list. -/
theorem firstContent_mem {L : List CustomViewConfig} {idx : Nat × Nat}
    {v : String} {dl : Nat} (h : firstContent L idx = some (v, dl)) :
    ∃ p ∈ L, p.item idx = some v ∧ dl = p.displayLength idx := by
  induction L with
  | nil => cases h
  | cons p ps ih =>
    have hcons : firstContent (p :: ps) idx
        = (match p.item idx with
          | some w => some (w, p.displayLength idx)
          | none => firstContent ps idx) := rfl
    rw [hcons] at h
    cases hp : p.item idx with
    | some w =>
      rw [hp] at h
      simp only [Option.some.injEq, Prod.mk.injEq] at h
      exact ⟨p, by simp, by rw [hp, h.1], h.2.symm⟩
    | none =>
      rw [hp] at h
      simp only at h
      obtain ⟨q, hq, hqi⟩ := ih h
      exact ⟨q, by simp [hq], hqi⟩

theorem maxLength_le_maxFieldLength (a : ViewArgs) :
    maxLength a ≤ maxFieldLength a := by
  unfold maxFieldLength
  split
  · exact le_foldl_max_acc _ _ _
  · exact le_refl _

theorem config_maxDL_le_maxLength {a : ViewArgs} {p : CustomViewConfig}
    (hp : p ∈ allConfigs a) : p.maxDisplayLength ≤ maxLength a := by
  unfold maxLength
  exact le_listMax (List.mem_map_of_mem _ hp)

/-! ## Per-cell visible width -/

theorem cleanS_numberSep (a : ViewArgs) : cleanL (numberSep a).data := by
  unfold numberSep
  split <;> decide

theorem pyJoin_toString_length_perm {l₁ l₂ : List Nat} (h : l₁.Perm l₂)
    (sep : String) :
    (pyJoin sep (l₁.map toString)).data.length
      = (pyJoin sep (l₂.map toString)).data.length := by
  rw [pyJoin_data_length, pyJoin_data_length]
  have hmap : (l₁.map toString).Perm (l₂.map toString) := h.map toString
  have hlen := (hmap.map (fun s => s.data.length)).sum_eq
  rw [hlen, hmap.length_eq]

theorem cleanL_clean_justify (a : ViewArgs) {v : String}
    (hv : cleanL v.data) : cleanL (justifyCell a none v).data := by
  unfold justifyCell rjust ljust
  cases a.align_right with
  | true =>
    simp only [if_pos]
    exact cleanL_append (cleanL_replicate_space _) hv
  | false =>
    simp only [Bool.false_eq_true, if_neg, if_false]
    exact cleanL_append hv (cleanL_replicate_space _)

theorem justify_none_length (a : ViewArgs) {v : String}
    (hlen : v.data.length ≤ maxFieldLength a) :
    (justifyCell a none v).data.length = maxFieldLength a := by
  unfold justifyCell rjust ljust
  cases a.align_right with
  | true =>
    simp only [if_pos]
    show (List.replicate (maxFieldLength a - v.data.length) ' ' ++ v.data).length = _
    simp only [List.length_append, List.length_replicate]
    omega
  | false =>
    simp only [Bool.false_eq_true, if_neg, if_false]
    show (v.data ++ List.replicate (maxFieldLength a - v.data.length) ' ').length = _
    simp only [List.length_append, List.length_replicate]
    omega

/-- Visible width, balance and newline-freeness of every rendered cell,
given clean arguments and the provider contract. -/
theorem cellVal_props (a : ViewArgs)
    (hca : CleanArgs a)
    (hok : ∀ p ∈ allConfigs a, ProviderOk p a.sudoku.coords)
    (idx : Nat × Nat) (hidx : idx ∈ a.sudoku.coords) :
    '\n' ∉ (cellVal a idx).data ∧ balancedL (cellVal a idx).data
      ∧ (stripAux false (cellVal a idx).data).length = maxFieldLength a := by
  cases hfc : firstContent (allConfigs a) idx with
  | some r =>
    obtain ⟨v, dl⟩ := r
    obtain ⟨p, hpmem, hpitem, hdl⟩ := firstContent_mem hfc
    have hcon := hok p hpmem idx v hpitem
    have hdlle : dl ≤ maxFieldLength a := by
      calc dl = p.displayLength idx := hdl
        _ ≤ p.maxDisplayLength := hcon.2.2.2 hidx
        _ ≤ maxLength a := config_maxDL_le_maxLength hpmem
        _ ≤ maxFieldLength a := maxLength_le_maxFieldLength a
    have hcv : cellVal a idx = justifyCell a (some dl) v := by
      unfold cellVal
      rw [hfc]
    have harith : maxFieldLength a + v.data.length - dl - v.data.length
        = maxFieldLength a - dl := by omega
    have hdata : (cellVal a idx).data
        = (if a.align_right then
            List.replicate (maxFieldLength a - dl) ' ' ++ v.data
          else v.data ++ List.replicate (maxFieldLength a - dl) ' ') := by
      rw [hcv]
      unfold justifyCell
      cases har : a.align_right with
      | true =>
        simp only [har, rjust, harith]
        simp
      | false =>
        simp only [har, rjust, ljust, harith]
        simp
    have hvis : (stripAux false v.data).length = dl := by
      have := hcon.2.2.1
      unfold visLen stripMarkup at this
      rw [this, hdl]
    rw [hdata]
    have hsp : cleanL (List.replicate (maxFieldLength a - dl) ' ') :=
      cleanL_replicate_space _
    cases a.align_right with
    | true =>
      rw [if_pos rfl]
      refine ⟨noNl_append (noNl_of_cleanL hsp) hcon.1, ?_, ?_⟩
      · unfold balancedL
        rw [tagState_append, tagState_of_cleanL hsp, hcon.2.1]
      · rw [stripAux_false_append_of_balanced (tagState_of_cleanL hsp),
          stripAux_of_cleanL hsp]
        simp only [List.length_append, List.length_replicate, hvis]
        omega
    | false =>
      rw [if_neg (by simp)]
      refine ⟨noNl_append hcon.1 (noNl_of_cleanL hsp), ?_, ?_⟩
      · unfold balancedL
        rw [tagState_append, hcon.2.1, tagState_of_cleanL hsp]
      · rw [stripAux_false_append_of_balanced hcon.2.1,
          stripAux_of_cleanL hsp]
        simp only [List.length_append, List.length_replicate, hvis]
        omega
  | none =>
    by_cases hcond : (sudokuAfter a).values idx = 0 ∧ a.include_candidates
    · -- candidate fallback cell
      have hfrag : cleanL (a.candidatePre ++ pyJoin (numberSep a)
          ((sortNat ((sudokuAfter a).candidates idx)).map toString)).data := by
        rw [String.data_append]
        refine cleanL_append hca.2.1 ?_
        refine cleanL_pyJoin (cleanS_numberSep a) ?_
        intro s hs
        obtain ⟨n, _, rfl⟩ := List.mem_map.1 hs
        exact cleanS_natRepr n
      have hlen : (a.candidatePre ++ pyJoin (numberSep a)
          ((sortNat ((sudokuAfter a).candidates idx)).map toString)).data.length
          ≤ maxFieldLength a := by
        have hperm := pyJoin_toString_length_perm
          (sortNat_perm ((sudokuAfter a).candidates idx)) (numberSep a)
        have hcand : (a.candidatePre ++ pyJoin (numberSep a)
            ((sortNat ((sudokuAfter a).candidates idx)).map toString)).data.length
            = candLenAt a idx := by
          rw [String.data_append, List.length_append]
          unfold candLenAt
          rw [hperm]
          omega
        rw [hcand]
        unfold maxFieldLength
        rw [if_pos hcond.2]
        exact mem_le_foldl_max _ hidx _
      have hjclean := cleanL_clean_justify a hfrag
      have hjlen := justify_none_length a hlen
      have hcv : cellVal a idx
          = (match a.candidate_style with
            | some cs => "[" ++ cs ++ "]"
                ++ justifyCell a none (a.candidatePre ++ pyJoin (numberSep a)
                  ((sortNat ((sudokuAfter a).candidates idx)).map toString))
                ++ "[/" ++ cs ++ "]"
            | none => justifyCell a none (a.candidatePre ++ pyJoin (numberSep a)
                ((sortNat ((sudokuAfter a).candidates idx)).map toString))) := by
        unfold cellVal
        rw [hfc, if_pos hcond]
      rw [hcv]
      cases hcs : a.candidate_style with
      | none =>
        refine ⟨noNl_of_cleanL hjclean, tagState_of_cleanL hjclean, ?_⟩
        rw [stripAux_of_cleanL hjclean]
        exact hjlen
      | some cs =>
        have hcsc : cleanS cs := by
          have := hca.2.2.1
          rw [hcs] at this
          exact this
        have hw := wrap_props cs hcsc _ (tagState_of_cleanL hjclean)
        refine ⟨hw.2.2 (noNl_of_cleanL hjclean), hw.2.1, ?_⟩
        rw [hw.1, stripAux_of_cleanL hjclean]
        exact hjlen
    · -- blank cell
      have hcv : cellVal a idx = justifyCell a none "" := by
        unfold cellVal
        rw [hfc, if_neg hcond]
      have hclean : cleanL ("" : String).data := by decide
      have hlen : ("" : String).data.length ≤ maxFieldLength a := by
        show 0 ≤ _
        omega
      have hjclean := cleanL_clean_justify a hclean
      have hjlen := justify_none_length a hlen
      rw [hcv]
      refine ⟨noNl_of_cleanL hjclean, tagState_of_cleanL hjclean, ?_⟩
      rw [stripAux_of_cleanL hjclean]
      exact hjlen

/-! ## Per-row visible width -/

theorem mem_coords {s : SudokuState} {r c : Nat} (hr : r < s.size)
    (hc : c < s.size) : (r, c) ∈ s.coords := by
  unfold SudokuState.coords SudokuState.indices
  exact List.mem_flatMap.2
    ⟨r, List.mem_range.2 hr, List.mem_map.2 ⟨c, List.mem_range.2 hc, rfl⟩⟩

theorem natStr_len_one {n : Nat} (h1 : 1 ≤ n) (h9 : n ≤ 9) :
    (toString n).data.length = 1 := by
  interval_cases n <;> decide

theorem balanced_append {u v : List Char} (hu : balancedL u)
    (hv : balancedL v) : balancedL (u ++ v) := by
  unfold balancedL at *
  rw [tagState_append, hu, hv]

theorem balanced_pyJoin {sep : String} (hsep : balancedL sep.data)
    {L : List String} (hL : ∀ s ∈ L, balancedL s.data) :
    balancedL (pyJoin sep L).data := by
  induction L with
  | nil =>
    show balancedL ("" : String).data
    decide
  | cons s rest ih =>
    cases rest with
    | nil => exact hL s (by simp)
    | cons t ts =>
      show balancedL (s ++ sep ++ pyJoin sep (t :: ts)).data
      rw [String.data_append, String.data_append]
      refine balanced_append (balanced_append (hL s (by simp)) hsep) ?_
      exact ih (fun x hx => hL x (by simp [hx]))

theorem stripLen_pyJoin {sep : String} (hsep : cleanL sep.data) :
    ∀ {L : List String}, (∀ s ∈ L, balancedL s.data) →
    (stripAux false (pyJoin sep L).data).length
      = (L.map (fun s => (stripAux false s.data).length)).sum
        + sep.data.length * (L.length - 1) := by
  intro L
  induction L with
  | nil => intro _; simp [pyJoin, stripAux]
  | cons s rest ih =>
    intro hbal
    cases rest with
    | nil => simp [pyJoin]
    | cons t ts =>
      show (stripAux false (s ++ sep ++ pyJoin sep (t :: ts)).data).length = _
      rw [String.data_append, String.data_append]
      have hbs : balancedL s.data := hbal s (by simp)
      have hbsep : balancedL sep.data := tagState_of_cleanL hsep
      rw [stripAux_false_append_of_balanced (balanced_append hbs hbsep)]
      rw [stripAux_false_append_of_balanced hbs]
      rw [stripAux_of_cleanL hsep]
      simp only [List.length_append]
      rw [ih (fun x hx => hbal x (by simp [hx]))]
      simp only [List.map_cons, List.sum_cons, List.length_cons,
        Nat.add_sub_cancel]
      ring

theorem sep_strip_one {s : String} (hs : s = "┃" ∨ s = "│") :
    (stripAux false s.data).length = 1 := by
  rcases hs with rfl | rfl <;> decide

/-- Newline-freeness, balance, and visible width 30 + 9 * field width of
each data-row line of a 3 × 3-block render. -/
theorem rowLine_props (a : ViewArgs) (hca : CleanArgs a)
    (hok : ∀ p ∈ allConfigs a, ProviderOk p a.sudoku.coords)
    (hsize : a.sudoku.size = 9) (hw : a.sudoku.w = 3) (hh : a.sudoku.h = 3)
    (rc : Nat) (hrc : rc < 9) :
    '\n' ∉ (rowLine a rc).data ∧ balancedL (rowLine a rc).data
      ∧ (stripAux false (rowLine a rc).data).length
          = 30 + 9 * maxFieldLength a := by
  have hcell : ∀ cc, cc < 9 →
      '\n' ∉ (cellVal a (rc, cc)).data ∧ balancedL (cellVal a (rc, cc)).data
        ∧ (stripAux false (cellVal a (rc, cc)).data).length = maxFieldLength a := by
    intro cc hcc
    exact cellVal_props a hca hok (rc, cc)
      (mem_coords (by omega) (by omega))
  have hexp : colStrList a rc
      = [cellVal a (rc, 0), "│", cellVal a (rc, 1), "│", cellVal a (rc, 2), "┃",
         cellVal a (rc, 3), "│", cellVal a (rc, 4), "│", cellVal a (rc, 5), "┃",
         cellVal a (rc, 6), "│", cellVal a (rc, 7), "│", cellVal a (rc, 8)] := by
    unfold colStrList
    rw [hsize, hw, hh]
    rfl
  have hdig : cleanL (toString (rc + 1)).data := cleanS_natRepr _
  have hlabel := wrap_props a.index_style hca.1 (toString (rc + 1))
    (tagState_of_cleanL hdig)
  have hlabelstrip : (stripAux false ("[" ++ a.index_style ++ "]"
      ++ toString (rc + 1) ++ "[/" ++ a.index_style ++ "]").data).length = 1 := by
    rw [hlabel.1, stripAux_of_cleanL hdig]
    exact natStr_len_one (by omega) (by omega)
  unfold rowLine
  rw [hexp]
  have hall : ∀ s ∈ ("[" ++ a.index_style ++ "]" ++ toString (rc + 1)
        ++ "[/" ++ a.index_style ++ "]")
      :: "┃" :: ([cellVal a (rc, 0), "│", cellVal a (rc, 1), "│",
          cellVal a (rc, 2), "┃", cellVal a (rc, 3), "│", cellVal a (rc, 4), "│",
          cellVal a (rc, 5), "┃", cellVal a (rc, 6), "│", cellVal a (rc, 7), "│",
          cellVal a (rc, 8)] ++ ["┃"]),
      '\n' ∉ s.data ∧ balancedL s.data := by
    intro s hs
    simp only [List.cons_append, List.nil_append, List.mem_cons,
      List.not_mem_nil, or_false] at hs
    rcases hs with rfl | rfl | rfl | rfl | rfl | rfl | rfl | rfl | rfl | rfl
      | rfl | rfl | rfl | rfl | rfl | rfl | rfl | rfl | rfl | rfl
    · exact ⟨hlabel.2.2 (noNl_of_cleanL hdig), hlabel.2.1⟩
    · exact ⟨by decide, by decide⟩
    · exact ⟨(hcell 0 (by omega)).1, (hcell 0 (by omega)).2.1⟩
    · exact ⟨by decide, by decide⟩
    · exact ⟨(hcell 1 (by omega)).1, (hcell 1 (by omega)).2.1⟩
    · exact ⟨by decide, by decide⟩
    · exact ⟨(hcell 2 (by omega)).1, (hcell 2 (by omega)).2.1⟩
    · exact ⟨by decide, by decide⟩
    · exact ⟨(hcell 3 (by omega)).1, (hcell 3 (by omega)).2.1⟩
    · exact ⟨by decide, by decide⟩
    · exact ⟨(hcell 4 (by omega)).1, (hcell 4 (by omega)).2.1⟩
    · exact ⟨by decide, by decide⟩
    · exact ⟨(hcell 5 (by omega)).1, (hcell 5 (by omega)).2.1⟩
    · exact ⟨by decide, by decide⟩
    · exact ⟨(hcell 6 (by omega)).1, (hcell 6 (by omega)).2.1⟩
    · exact ⟨by decide, by decide⟩
    · exact ⟨(hcell 7 (by omega)).1, (hcell 7 (by omega)).2.1⟩
    · exact ⟨by decide, by decide⟩
    · exact ⟨(hcell 8 (by omega)).1, (hcell 8 (by omega)).2.1⟩
    · exact ⟨by decide, by decide⟩
  refine ⟨?_, ?_, ?_⟩
  · exact noNl_pyJoin (by decide) (fun s hs => (hall s hs).1)
  · exact balanced_pyJoin (by decide) (fun s hs => (hall s hs).2)
  · rw [stripLen_pyJoin (by decide) (fun s hs => (hall s hs).2)]
    simp only [List.cons_append, List.nil_append, List.map_cons,
      List.sum_cons, List.map_nil, List.sum_nil, List.length_cons,
      List.length_nil]
    rw [hlabelstrip,
      (hcell 0 (by omega)).2.2, (hcell 1 (by omega)).2.2,
      (hcell 2 (by omega)).2.2, (hcell 3 (by omega)).2.2,
      (hcell 4 (by omega)).2.2, (hcell 5 (by omega)).2.2,
      (hcell 6 (by omega)).2.2, (hcell 7 (by omega)).2.2,
      (hcell 8 (by omega)).2.2]
    have h1 : (stripAux false ("┃" : String).data).length = 1 := by decide
    have h2 : (stripAux false ("│" : String).data).length = 1 := by decide
    have hsep1 : (" " : String).data.length = 1 := by decide
    simp only [h1, h2, hsep1]
    omega

/-! ## The output as its list of lines -/

theorem rowTail_0 (a : ViewArgs) (hsize : a.sudoku.size = 9)
    (hh : a.sudoku.h = 3) :
    rowTail a 0 = "\n" ++ "  " ++ thinRuleStr a.sudoku.w (maxFieldLength a) := by
  unfold rowTail
  rw [hsize, hh]
  norm_num

theorem rowTail_1 (a : ViewArgs) (hsize : a.sudoku.size = 9)
    (hh : a.sudoku.h = 3) :
    rowTail a 1 = "\n" ++ "  " ++ thinRuleStr a.sudoku.w (maxFieldLength a) := by
  unfold rowTail
  rw [hsize, hh]
  norm_num

theorem rowTail_2 (a : ViewArgs) (hsize : a.sudoku.size = 9)
    (hh : a.sudoku.h = 3) :
    rowTail a 2 = "\n" ++ "  " ++ ruleStr a.sudoku.w (maxFieldLength a) := by
  unfold rowTail
  rw [hsize, hh]
  norm_num

theorem rowTail_3 (a : ViewArgs) (hsize : a.sudoku.size = 9)
    (hh : a.sudoku.h = 3) :
    rowTail a 3 = "\n" ++ "  " ++ thinRuleStr a.sudoku.w (maxFieldLength a) := by
  unfold rowTail
  rw [hsize, hh]
  norm_num

theorem rowTail_4 (a : ViewArgs) (hsize : a.sudoku.size = 9)
    (hh : a.sudoku.h = 3) :
    rowTail a 4 = "\n" ++ "  " ++ thinRuleStr a.sudoku.w (maxFieldLength a) := by
  unfold rowTail
  rw [hsize, hh]
  norm_num

theorem rowTail_5 (a : ViewArgs) (hsize : a.sudoku.size = 9)
    (hh : a.sudoku.h = 3) :
    rowTail a 5 = "\n" ++ "  " ++ ruleStr a.sudoku.w (maxFieldLength a) := by
  unfold rowTail
  rw [hsize, hh]
  norm_num

theorem rowTail_6 (a : ViewArgs) (hsize : a.sudoku.size = 9)
    (hh : a.sudoku.h = 3) :
    rowTail a 6 = "\n" ++ "  " ++ thinRuleStr a.sudoku.w (maxFieldLength a) := by
  unfold rowTail
  rw [hsize, hh]
  norm_num

theorem rowTail_7 (a : ViewArgs) (hsize : a.sudoku.size = 9)
    (hh : a.sudoku.h = 3) :
    rowTail a 7 = "\n" ++ "  " ++ thinRuleStr a.sudoku.w (maxFieldLength a) := by
  unfold rowTail
  rw [hsize, hh]
  norm_num

theorem rowTail_8 (a : ViewArgs) (hsize : a.sudoku.size = 9)
    (hh : a.sudoku.h = 3) :
    rowTail a 8 = "" ++ "  " ++ "" := by
  unfold rowTail
  rw [hsize, hh]
  norm_num

/-- For a 3 × 3-block render the output string is exactly its 21 lines
joined by newlines. -/
theorem viewStr_join (a : ViewArgs)
    (hw : a.sudoku.w = 3) (hh : a.sudoku.h = 3) :
    viewStr a = pyJoin "\n" (viewLines a) := by
  have hsize : a.sudoku.size = 9 := by
    unfold SudokuState.size
    rw [hw, hh]
  have hr : List.range 9 = [0, 1, 2, 3, 4, 5, 6, 7, 8] := rfl
  unfold viewStr bodyStr
  rw [hsize, hr]
  simp only [List.foldl_cons, List.foldl_nil]
  rw [rowTail_0 a hsize hh, rowTail_1 a hsize hh, rowTail_2 a hsize hh,
    rowTail_3 a hsize hh, rowTail_4 a hsize hh, rowTail_5 a hsize hh,
    rowTail_6 a hsize hh, rowTail_7 a hsize hh, rowTail_8 a hsize hh]
  rw [firstRule_eq, lastRule_eq]
  unfold viewLines thinRuleLine thickRuleLine thinRuleStr ruleStr
  apply String.ext
  simp [String.data_append, pyJoin]

theorem cleanL_foldl_append {β : Type} (f : β → String)
    (hf : ∀ j, cleanL (f j).data) (l : List β) :
    ∀ init : String, cleanL init.data →
      cleanL (l.foldl (fun acc j => acc ++ f j) init).data := by
  induction l with
  | nil => intro init h; exact h
  | cons x xs ih =>
    intro init h
    simp only [List.foldl_cons]
    refine ih _ ?_
    rw [String.data_append]
    exact cleanL_append h (hf x)

theorem cleanL_pyCenter {s : String} (hs : cleanL s.data) (w : Nat) :
    cleanL (pyCenter s w).data := by
  unfold pyCenter
  refine cleanL_append (cleanL_append (cleanL_replicate_space _) hs) ?_
  exact cleanL_replicate_space _

/-- The inner (unstyled) text of the header row is plain text. -/
theorem rowIndices_inner_clean (a : ViewArgs) :
    cleanL (((List.range 9).map (fun i => (i + 1))).foldl
      (fun acc i => acc ++ pyCenter (toString i) (maxFieldLength a + 3)) "   ").data := by
  refine cleanL_foldl_append _ ?_ _ _ (by decide)
  intro j
  exact cleanL_pyCenter (cleanS_natRepr j) _

theorem rowIndices_props (a : ViewArgs) (his : cleanS a.index_style) :
    '\n' ∉ (rowIndices a).data
      ∧ stripAux false (rowIndices a).data
          = (((List.range 9).map (fun i => (i + 1))).foldl
            (fun acc i => acc ++ pyCenter (toString i) (maxFieldLength a + 3)) "   ").data := by
  have hcl := rowIndices_inner_clean a
  have h := wrap_props a.index_style his _ (tagState_of_cleanL hcl)
  unfold rowIndices
  exact ⟨h.2.2 (noNl_of_cleanL hcl), by rw [h.1, stripAux_of_cleanL hcl]⟩

theorem noNl_firstRuleLine (w mfl : Nat) :
    '\n' ∉ (firstRuleLine w mfl).data := by
  unfold firstRuleLine
  rw [String.data_append]
  refine noNl_append (by decide) ?_
  exact noNl_chrRep _ _ (by decide) (noNl_chrRep _ _ (by decide)
    (noNl_chrRep _ _ (by decide) (noNl_chrRep _ _ (by decide)
      (noNl_ruleCore w mfl))))

theorem noNl_lastRuleLine (w mfl : Nat) :
    '\n' ∉ (lastRuleLine w mfl).data := by
  unfold lastRuleLine
  rw [String.data_append]
  refine noNl_append (by decide) ?_
  exact noNl_chrRep _ _ (by decide) (noNl_chrRep _ _ (by decide)
    (noNl_chrRep _ _ (by decide) (noNl_chrRep _ _ (by decide)
      (noNl_ruleCore w mfl))))

theorem noNl_thickRuleLine (w mfl : Nat) :
    '\n' ∉ (thickRuleLine w mfl).data := by
  unfold thickRuleLine
  rw [String.data_append]
  exact noNl_append (by decide) (noNl_ruleCore w mfl)

theorem noNl_thinRuleLine (w mfl : Nat) :
    '\n' ∉ (thinRuleLine w mfl).data := by
  unfold thinRuleLine
  rw [String.data_append]
  exact noNl_append (by decide) (noNl_thinCore w mfl)

/-- Every line of a 3 × 3-block render is newline-free. -/
theorem viewLines_noNl (a : ViewArgs) (hca : CleanArgs a)
    (hok : ∀ p ∈ allConfigs a, ProviderOk p a.sudoku.coords)
    (hw : a.sudoku.w = 3) (hh : a.sudoku.h = 3) :
    ∀ s ∈ viewLines a, '\n' ∉ s.data := by
  have hsize : a.sudoku.size = 9 := by
    unfold SudokuState.size
    rw [hw, hh]
  have hrow : ∀ rc, rc < 9 → '\n' ∉ (rowLine a rc).data :=
    fun rc hrc => (rowLine_props a hca hok hsize hw hh rc hrc).1
  intro s hs
  unfold viewLines at hs
  simp only [List.mem_cons, List.not_mem_nil, or_false] at hs
  rcases hs with rfl | rfl | rfl | rfl | rfl | rfl | rfl | rfl | rfl | rfl
    | rfl | rfl | rfl | rfl | rfl | rfl | rfl | rfl | rfl | rfl | rfl
  · exact (rowIndices_props a hca.1).1
  · exact noNl_firstRuleLine _ _
  · exact hrow 0 (by omega)
  · exact noNl_thinRuleLine _ _
  · exact hrow 1 (by omega)
  · exact noNl_thinRuleLine _ _
  · exact hrow 2 (by omega)
  · exact noNl_thickRuleLine _ _
  · exact hrow 3 (by omega)
  · exact noNl_thinRuleLine _ _
  · exact hrow 4 (by omega)
  · exact noNl_thinRuleLine _ _
  · exact hrow 5 (by omega)
  · exact noNl_thickRuleLine _ _
  · exact hrow 6 (by omega)
  · exact noNl_thinRuleLine _ _
  · exact hrow 7 (by omega)
  · exact noNl_thinRuleLine _ _
  · rw [String.data_append]
    exact noNl_append (hrow 8 (by omega)) (by decide)
  · exact noNl_lastRuleLine _ _
  · decide

/-- Splitting the output of a 3 × 3-block render at newlines yields
exactly the 21 lines of viewLines. -/
theorem viewStr_splitNl (a : ViewArgs) (hca : CleanArgs a)
    (hpc : ProviderContract a) (hid : InitDimsOk a)
    (hw : a.sudoku.w = 3) (hh : a.sudoku.h = 3) :
    splitNl (viewStr a).data = (viewLines a).map String.data := by
  rw [viewStr_join a hw hh]
  exact splitNl_pyJoinNl _ (by unfold viewLines; simp)
    (viewLines_noNl a hca (allConfigs_ok a hca hpc hid) hw hh)

/-! ## Header entries -/

theorem filter_ne_space_replicate (n : Nat) :
    (List.replicate n ' ').filter (fun c => decide (c ≠ ' ')) = [] := by
  induction n with
  | zero => rfl
  | succ m ih => simp [List.replicate_succ, List.filter_cons, ih]

theorem filter_pyCenter_digit {k : Nat} (h1 : 1 ≤ k) (h9 : k ≤ 9) (w : Nat) :
    ((pyCenter (toString k) w).data.filter (fun c => decide (c ≠ ' '))).length = 1 := by
  unfold pyCenter
  show ((List.replicate _ ' ' ++ (toString k).data ++ List.replicate _ ' ').filter _).length = 1
  simp only [List.filter_append, List.length_append, filter_ne_space_replicate,
    List.length_nil]
  have : (((toString k).data).filter (fun c => decide (c ≠ ' '))).length = 1 := by
    interval_cases k <;> decide
  omega

/-- The header row carries exactly 9 non-blank (index digit) entries. -/
theorem header_entry_count (a : ViewArgs) (his : cleanS a.index_style) :
    ((stripAux false (rowIndices a).data).filter (fun c => decide (c ≠ ' '))).length
      = 9 := by
  rw [(rowIndices_props a his).2]
  have hm : (List.range 9).map (fun i => (i + 1)) = [1, 2, 3, 4, 5, 6, 7, 8, 9] := rfl
  rw [hm]
  simp only [List.foldl_cons, List.foldl_nil, String.data_append]
  simp only [List.filter_append, List.length_append]
  have h3 : (("   " : String).data.filter (fun c => decide (c ≠ ' '))).length = 0 := by
    decide
  rw [show (("   " : String).data.filter (fun c => decide (c ≠ ' '))).length = 0 from h3]
  rw [filter_pyCenter_digit (by omega) (by omega),
    filter_pyCenter_digit (by omega) (by omega),
    filter_pyCenter_digit (by omega) (by omega),
    filter_pyCenter_digit (by omega) (by omega),
    filter_pyCenter_digit (by omega) (by omega),
    filter_pyCenter_digit (by omega) (by omega),
    filter_pyCenter_digit (by omega) (by omega),
    filter_pyCenter_digit (by omega) (by omega),
    filter_pyCenter_digit (by omega) (by omega)]

/-! ## C4: width invariant -/

/-- C4, counterexample: the claim says every data row of the output has
identical stripped length.  On a plain 9 × 9 render whose providers all
honour the display-length contract, the first data row strips to 30
characters but the last data row strips to 32 — the source appends two
gutter spaces after the last row before the bottom frame. -/
theorem c4_counterexample :
    (stripAux false ((splitNl (viewStr c4args).data).getD 2 [])).length = 30
      ∧ (stripAux false ((splitNl (viewStr c4args).data).getD 18 [])).length = 32
      ∧ (30 : Nat) ≠ 32 := by
  refine ⟨?_, ?_, by decide⟩
  · set_option maxRecDepth 40000 in decide
  · set_option maxRecDepth 40000 in decide

/-- C4, amended: for a 3 × 3-block board with plain-text styles and
prefix, matching init-board dimensions, and providers honouring the
display-length contract (fragments newline-free and tag-balanced,
display_length equal to visible length and bounded by
max_display_length), the output has 21 lines; all data rows except the
last strip to the same width 30 + 9 * field width, and the last data row
strips to exactly two more characters (its trailing gutter spaces). -/
theorem c4_width_invariant (a : ViewArgs)
    (hw : a.sudoku.w = 3) (hh : a.sudoku.h = 3)
    (hca : CleanArgs a) (hpc : ProviderContract a) (hid : InitDimsOk a) :
    (splitNl (viewStr a).data).length = 21
      ∧ (∀ k, k < 8 →
          (stripAux false ((splitNl (viewStr a).data).getD (2 + 2 * k) [])).length
            = 30 + 9 * maxFieldLength a)
      ∧ (stripAux false ((splitNl (viewStr a).data).getD 18 [])).length
          = 32 + 9 * maxFieldLength a := by
  have hok := allConfigs_ok a hca hpc hid
  have hsize : a.sudoku.size = 9 := by
    unfold SudokuState.size
    rw [hw, hh]
  have hsplit := viewStr_splitNl a hca hpc hid hw hh
  have hrow := fun rc hrc => rowLine_props a hca hok hsize hw hh rc hrc
  rw [hsplit]
  refine ⟨rfl, ?_, ?_⟩
  · intro k hk
    interval_cases k
    · rw [show ((viewLines a).map String.data).getD (2 + 2 * 0) []
          = (rowLine a 0).data from rfl]
      exact (hrow 0 (by omega)).2.2
    · rw [show ((viewLines a).map String.data).getD (2 + 2 * 1) []
          = (rowLine a 1).data from rfl]
      exact (hrow 1 (by omega)).2.2
    · rw [show ((viewLines a).map String.data).getD (2 + 2 * 2) []
          = (rowLine a 2).data from rfl]
      exact (hrow 2 (by omega)).2.2
    · rw [show ((viewLines a).map String.data).getD (2 + 2 * 3) []
          = (rowLine a 3).data from rfl]
      exact (hrow 3 (by omega)).2.2
    · rw [show ((viewLines a).map String.data).getD (2 + 2 * 4) []
          = (rowLine a 4).data from rfl]
      exact (hrow 4 (by omega)).2.2
    · rw [show ((viewLines a).map String.data).getD (2 + 2 * 5) []
          = (rowLine a 5).data from rfl]
      exact (hrow 5 (by omega)).2.2
    · rw [show ((viewLines a).map String.data).getD (2 + 2 * 6) []
          = (rowLine a 6).data from rfl]
      exact (hrow 6 (by omega)).2.2
    · rw [show ((viewLines a).map String.data).getD (2 + 2 * 7) []
          = (rowLine a 7).data from rfl]
      exact (hrow 7 (by omega)).2.2
  · rw [show ((viewLines a).map String.data).getD 18 []
        = (rowLine a 8 ++ "  ").data from rfl]
    rw [String.data_append]
    rw [stripAux_false_append_of_balanced (hrow 8 (by omega)).2.1]
    have h2 : stripAux false ("  " : String).data = [' ', ' '] := by decide
    rw [h2]
    simp only [List.length_append]
    rw [(hrow 8 (by omega)).2.2]
    simp only [List.length_cons, List.length_nil]
    omega

/-- C4, witness: the amended width invariant applied to a concrete plain
9 × 9 render, every hypothesis discharged there. -/
theorem c4_witness :
    (splitNl (viewStr c4args).data).length = 21
      ∧ (∀ k, k < 8 →
          (stripAux false ((splitNl (viewStr c4args).data).getD (2 + 2 * k) [])).length
            = 30 + 9 * maxFieldLength c4args)
      ∧ (stripAux false ((splitNl (viewStr c4args).data).getD 18 [])).length
          = 32 + 9 * maxFieldLength c4args :=
  c4_width_invariant c4args rfl rfl (by decide)
    (by intro p hp; cases hp) (by trivial)

/-! ## C8: block-size agnosticism -/

/-- C8, counterexample: the claim says that for every valid block pair the
output has exactly N header entries.  For the valid pair (2,2) with N = 4
the header still carries 9 index entries, because the header loop is
hard-coded to 1..9. -/
theorem c8_counterexample :
    ((stripAux false ((splitNl (viewStr c8args).data).getD 0 [])).filter
        (fun c => decide (c ≠ ' '))).length = 9
      ∧ (9 : Nat) ≠ 4 := by
  refine ⟨?_, by decide⟩
  set_option maxRecDepth 40000 in decide

/-- C8, amended: the structural property holds exactly for the 3 × 3
block pair (N = 9): the output consists of the 21 lines of viewLines —
header, top frame, the 9 data rows with thin rules inside blocks and
thick rules exactly after data rows 3 and 6, last data row with its two
trailing spaces, bottom frame, final empty piece — the header carries
exactly 9 index entries, and within every data row the column separator
after column cc is thick exactly at the block boundaries cc = 2 and
cc = 5 and absent after the last column.  For other block pairs the
header count and separator layout stay tied to the hard-coded 9. -/
theorem c8_structure (a : ViewArgs)
    (hw : a.sudoku.w = 3) (hh : a.sudoku.h = 3)
    (hca : CleanArgs a) (hpc : ProviderContract a) (hid : InitDimsOk a) :
    splitNl (viewStr a).data = (viewLines a).map String.data
      ∧ (splitNl (viewStr a).data).length = 21
      ∧ ((stripAux false (rowIndices a).data).filter
          (fun c => decide (c ≠ ' '))).length = 9
      ∧ (∀ cc, cc < 8 →
          sepAfter 3 3 cc = if (cc + 1) % 3 = 0 then ["┃"] else ["│"])
      ∧ sepAfter 3 3 8 = [] := by
  have hsplit := viewStr_splitNl a hca hpc hid hw hh
  refine ⟨hsplit, by rw [hsplit]; rfl, header_entry_count a hca.1, ?_, by decide⟩
  intro cc hcc
  interval_cases cc <;> decide

/-- C8, witness: the amended structure applied to a concrete plain 9 × 9
render, every hypothesis discharged there. -/
theorem c8_witness :
    splitNl (viewStr c4args).data = (viewLines c4args).map String.data
      ∧ ((stripAux false (rowIndices c4args).data).filter
          (fun c => decide (c ≠ ' '))).length = 9 := by
  have h := c8_structure c4args rfl rfl (by decide)
    (by intro p hp; cases hp) (by trivial)
  exact ⟨h.1, h.2.2.1⟩

end SudokuView
